import Mathlib

/-!
Verification of the `lrucache` class of `src/lru.py` (pylru).

The Python code keeps a fixed arena of `size` doubly linked nodes (class
`dlnode`, each with `next`, `prev`, `key`, `obj` attributes) plus a hash
table `self.table` mapping keys to nodes, and a distinguished `self.head`
node reference.

Shallow embedding used here:
  * Python objects (the `dlnode` instances) live in an arena; a node
    reference is the `Nat` index of the node in the arena, and the arena is
    a function `Nat → dlnode` (only indices `< size` are ever relevant).
    The node created first in `__init__` has index 0, the node created in
    loop iteration `i` has index `i`.
  * Python values (keys and stored objects) are modeled by `PyVal`, which
    has a `none` constructor for Python's `None` (used by the code both as
    the empty-slot sentinel and as an ordinary insertable value), integers,
    and string values (strings are identified by a numeric id; only
    distinctness and distinctness from `None` matter).
  * The dictionary `self.table` is an association list with Python dict
    semantics: assignment to an existing key replaces the value in place,
    assignment to a fresh key appends, `del` removes the entry, and a `del`
    or lookup of an absent key raises `KeyError`.  Fallible operations
    return `Except Unit _`; `.error ()` is a raised `KeyError`.
  * Each Python statement that can observe earlier mutations reads its
    operands from the state produced by the previous statement, so the
    aliasing behaviour of `mtf` (e.g. `node.prev.next = node.next` when
    `node.prev is node`) is reproduced exactly.
  * In every fallible method of the class, the raise point precedes any
    mutation of `self` (`__getitem__`/`__delitem__` raise at the initial
    `self.table[key]` lookup, `__setitem__` raises at
    `del self.table[node.key]` before any assignment), so a raising call
    leaves the cache unchanged; `applyOp` below encodes this.
-/

/-- Python values, as far as the cache is concerned: `None`, integers, and
strings (identified by a numeric id). -/
inductive PyVal where
  | none
  | int (n : Int)
  | str (s : Nat)
deriving DecidableEq

/-- One node of the circular doubly linked list (Python class `dlnode`).
`next` and `prev` are arena indices of the neighbouring nodes; `key` and
`obj` hold the stored key/object, `PyVal.none` when empty. -/
structure dlnode where
  next : Nat
  prev : Nat
  key : PyVal
  obj : PyVal
deriving DecidableEq

/-- Lookup in the association list modelling the Python dict
(`self.table[k]`, first matching entry). -/
def lookupT : List (PyVal × Nat) → PyVal → Option Nat
  | [], _ => Option.none
  | p :: t, k => if p.1 = k then Option.some p.2 else lookupT t k

/-- Python dict deletion `del t[k]`: remove the (unique) entry for `k`.
The caller checks presence; on an absent key the Python statement raises. -/
def eraseT : List (PyVal × Nat) → PyVal → List (PyVal × Nat)
  | [], _ => []
  | p :: t, k => if p.1 = k then t else p :: eraseT t k

/-- Python dict assignment `t[k] = n`: replace the value in place if the key
is present, append a fresh entry otherwise. -/
def insertT : List (PyVal × Nat) → PyVal → Nat → List (PyVal × Nat)
  | [], k, n => [(k, n)]
  | p :: t, k, n => if p.1 = k then (k, n) :: t else p :: insertT t k n

/-- The state of a `lrucache` instance: the arena of `dlnode`s, the number
of nodes (`size` passed to `__init__`), the index of the `self.head` node,
and the dict `self.table`. -/
structure lrucache where
  size : Nat
  head : Nat
  nodes : Nat → dlnode
  table : List (PyVal × Nat)

namespace lrucache

/-- Pointwise arena update: mutate the node object at index `i`. -/
def updN (f : Nat → dlnode) (i : Nat) (nd : dlnode) : Nat → dlnode :=
  fun j => if j = i then nd else f j

/-- `<node i>.next = x` -/
def setNext (c : lrucache) (i x : Nat) : lrucache :=
  { c with nodes := updN c.nodes i { c.nodes i with next := x } }

/-- `<node i>.prev = x` -/
def setPrev (c : lrucache) (i x : Nat) : lrucache :=
  { c with nodes := updN c.nodes i { c.nodes i with prev := x } }

/-- `<node i>.key = k` -/
def setKey (c : lrucache) (i : Nat) (k : PyVal) : lrucache :=
  { c with nodes := updN c.nodes i { c.nodes i with key := k } }

/-- `<node i>.obj = v` -/
def setObj (c : lrucache) (i : Nat) (v : PyVal) : lrucache :=
  { c with nodes := updN c.nodes i { c.nodes i with obj := v } }

/-- `node.prev.next = node.next` -/
def mtf1 (c : lrucache) (i : Nat) : lrucache :=
  setNext c ((c.nodes i).prev) ((c.nodes i).next)

/-- `node.next.prev = node.prev` -/
def mtf2 (c : lrucache) (i : Nat) : lrucache :=
  setPrev c ((c.nodes i).next) ((c.nodes i).prev)

/-- `node.prev = self.head.prev` -/
def mtf3 (c : lrucache) (i : Nat) : lrucache :=
  setPrev c i ((c.nodes c.head).prev)

/-- `node.next = self.head.prev.next` -/
def mtf4 (c : lrucache) (i : Nat) : lrucache :=
  setNext c i ((c.nodes ((c.nodes c.head).prev)).next)

/-- `node.next.prev = node` -/
def mtf5 (c : lrucache) (i : Nat) : lrucache :=
  setPrev c ((c.nodes i).next) i

/-- `node.prev.next = node` -/
def mtf6 (c : lrucache) (i : Nat) : lrucache :=
  setNext c ((c.nodes i).prev) i

/-- `lrucache.mtf`, statement by statement; each of the six assignments
reads its operands from the state left by the previous one, exactly like
the Python attribute reads:
```
node.prev.next = node.next
node.next.prev = node.prev
node.prev = self.head.prev
node.next = self.head.prev.next
node.next.prev = node
node.prev.next = node
``` -/
def mtf (c : lrucache) (i : Nat) : lrucache :=
  mtf6 (mtf5 (mtf4 (mtf3 (mtf2 (mtf1 c i) i) i) i) i) i

/-- `__len__`: `return len(self.table)`. -/
def len (c : lrucache) : Nat := c.table.length

/-- `clear`: `self.table.clear()` — the nodes are left untouched. -/
def clear (c : lrucache) : lrucache := { c with table := [] }

/-- `__contains__`: `return key in self.table`. -/
def contains (c : lrucache) (k : PyVal) : Bool := (lookupT c.table k).isSome

/-- `__getitem__`: raises `KeyError` when `key` is not in the table;
otherwise moves the node to the front, makes it the head, and returns
`node.obj` (read from the final state; `mtf` does not touch `obj`). -/
def getitem (c : lrucache) (k : PyVal) : Except Unit (lrucache × PyVal) :=
  match lookupT c.table k with
  | Option.none => Except.error ()
  | Option.some n =>
    let c1 := mtf c n
    let c2 := { c1 with head := n }
    Except.ok (c2, (c2.nodes n).obj)

/-- `__setitem__`.  Update path: replace `node.obj`, `mtf`, reassign head.
Insert path: `node = self.head.prev`; if `node.key` is not `None`, execute
`del self.table[node.key]` (raising `KeyError` when that key is absent from
the table); then store key/obj in the node, put the node in the table under
the (new) key, and reassign head. -/
def setitem (c : lrucache) (k v : PyVal) : Except Unit lrucache :=
  match lookupT c.table k with
  | Option.some n =>
    let c1 := setObj c n v
    let c2 := mtf c1 n
    Except.ok { c2 with head := n }
  | Option.none =>
    let n := (c.nodes c.head).prev
    if (c.nodes n).key = PyVal.none then
      let c1 := setKey c n k
      let c2 := setObj c1 n v
      let c3 := { c2 with table := insertT c2.table ((c2.nodes n).key) n }
      Except.ok { c3 with head := n }
    else
      match lookupT c.table ((c.nodes n).key) with
      | Option.none => Except.error ()
      | Option.some _ =>
        let c0 := { c with table := eraseT c.table ((c.nodes n).key) }
        let c1 := setKey c0 n k
        let c2 := setObj c1 n v
        let c3 := { c2 with table := insertT c2.table ((c2.nodes n).key) n }
        Except.ok { c3 with head := n }

/-- `__delitem__`: raises `KeyError` when `key` is not in the table;
otherwise removes the entry, empties the node, moves it to the front and
sets `self.head = node.next` (read after the `mtf`). -/
def delitem (c : lrucache) (k : PyVal) : Except Unit lrucache :=
  match lookupT c.table k with
  | Option.none => Except.error ()
  | Option.some n =>
    let c1 := { c with table := eraseT c.table k }
    let c2 := setKey c1 n PyVal.none
    let c3 := setObj c2 n PyVal.none
    let c4 := mtf c3 n
    Except.ok { c4 with head := ((c4.nodes n).next) }

/-- `node = dlnode()`: create the fresh node `i`, self-linked and empty. -/
def addN1 (c : lrucache) (i : Nat) : lrucache :=
  { c with nodes := updN c.nodes i ⟨i, i, PyVal.none, PyVal.none⟩ }

/-- `node.prev = self.head` -/
def addN2 (c : lrucache) (i : Nat) : lrucache := setPrev c i c.head

/-- `node.next = self.head.next` -/
def addN3 (c : lrucache) (i : Nat) : lrucache :=
  setNext c i ((c.nodes c.head).next)

/-- `self.head.next.prev = node` -/
def addN4 (c : lrucache) (i : Nat) : lrucache :=
  setPrev c ((c.nodes c.head).next) i

/-- `self.head.next = node` -/
def addN5 (c : lrucache) (i : Nat) : lrucache := setNext c c.head i

/-- One iteration of the `__init__` loop: create node `i` (a fresh
`dlnode`, self-linked) and splice it directly after the head:
```
node.prev = self.head
node.next = self.head.next
self.head.next.prev = node
self.head.next = node
``` -/
def addNode (c : lrucache) (i : Nat) : lrucache :=
  addN5 (addN4 (addN3 (addN2 (addN1 c i) i) i) i) i

/-- `__init__(size)`: an empty table, node 0 as head (a fresh self-linked
`dlnode`), then the loop `for i in range(1, size)` inserting node `i`
after the head.  (`assert size > 0` is a precondition; theorems below
quantify over `0 < size`.) -/
def init (size : Nat) : lrucache :=
  (List.range' 1 (size - 1)).foldl addNode
    { size := size, head := 0,
      nodes := fun j => ⟨j, j, PyVal.none, PyVal.none⟩, table := [] }

/-- The public operations of the cache. -/
inductive Op where
  | get (k : PyVal)
  | set (k v : PyVal)
  | del (k : PyVal)
  | clr

/-- Apply one public operation.  A raised `KeyError` leaves the cache
unchanged, which is faithful to the Python code because in every method the
raise point precedes the first mutation of `self`. -/
def applyOp (c : lrucache) : Op → lrucache
  | Op.get k =>
    match getitem c k with
    | Except.ok p => p.1
    | Except.error _ => c
  | Op.set k v =>
    match setitem c k v with
    | Except.ok c' => c'
    | Except.error _ => c
  | Op.del k =>
    match delitem c k with
    | Except.ok c' => c'
    | Except.error _ => c
  | Op.clr => clear c

/-- Run a sequence of public operations. -/
def run (c : lrucache) (ops : List Op) : lrucache := ops.foldl applyOp c

/-- Walk `m` steps along a successor function, collecting the visited
indices. -/
def walkN (f : Nat → Nat) : Nat → Nat → List Nat
  | _, 0 => []
  | x, m + 1 => x :: walkN f (f x) m

/-- The ring walk of the cache: start at `head`, follow `next` for `size`
steps. -/
def walkL (c : lrucache) : List Nat :=
  walkN (fun i => (c.nodes i).next) c.head c.size

/-- The first `len` entries of the ring walk: by the ordering invariant,
exactly the occupied slots in most- to least-recently-used order. -/
def occL (c : lrucache) : List Nat := (walkL c).take (len c)

/-- The remaining entries of the ring walk: the empty slots clustered at
the tail. -/
def empL (c : lrucache) : List Nat := (walkL c).drop (len c)

/-- Ring well-formedness: the head and all links are in range and `prev`
and `next` are mutually inverse at every node. -/
def WFr (c : lrucache) : Prop :=
  c.head < c.size ∧
  ∀ i, i < c.size →
    (c.nodes i).next < c.size ∧ (c.nodes i).prev < c.size ∧
    (c.nodes ((c.nodes i).next)).prev = i ∧ (c.nodes ((c.nodes i).prev)).next = i

instance (c : lrucache) : Decidable (WFr c) := by
  unfold WFr; infer_instance

/-- A well-formed ring: link structure plus a single cycle (the walk from
the head visits `size` pairwise distinct nodes). -/
def WFring (c : lrucache) : Prop := WFr c ∧ (walkL c).Nodup

instance (c : lrucache) : Decidable (WFring c) := by
  unfold WFring; infer_instance

/-- The weak table invariant: table keys are pairwise distinct, and every
entry points at an in-range node whose `key` field is the entry's key and
is not `None`.  Unlike `Inv` below it survives `clear`, because it says
nothing about slots that the table does not mention. -/
def Wk (c : lrucache) : Prop :=
  (c.table.map Prod.fst).Nodup ∧
  ∀ p ∈ c.table, p.2 < c.size ∧ (c.nodes p.2).key = p.1 ∧ p.1 ≠ PyVal.none

instance (c : lrucache) : Decidable (Wk c) := by
  unfold Wk; infer_instance

/-- The full Index/Ring agreement invariant (spec §3 and §8): a well-formed
single cycle; the table is no larger than the ring; table keys are pairwise
distinct; the first `len` slots of the walk are occupied by pairwise
distinct non-`None` keys and the table maps each such key back to its slot;
every table entry points into that occupied prefix with a matching key; and
the remaining slots of the walk are empty. -/
def Inv (c : lrucache) : Prop :=
  WFring c ∧
  len c ≤ c.size ∧
  (c.table.map Prod.fst).Nodup ∧
  (∀ i ∈ occL c, (c.nodes i).key ≠ PyVal.none ∧
    lookupT c.table ((c.nodes i).key) = Option.some i) ∧
  (∀ p ∈ c.table, p.2 ∈ occL c ∧ (c.nodes p.2).key = p.1) ∧
  (∀ i ∈ empL c, (c.nodes i).key = PyVal.none ∧ (c.nodes i).obj = PyVal.none)

instance (c : lrucache) : Decidable (Inv c) := by
  unfold Inv; infer_instance

/-! ### Basic lemmas about the arena helpers -/

@[simp] theorem updN_same (f : Nat → dlnode) (i : Nat) (nd : dlnode) :
    updN f i nd i = nd := by
  simp [updN]

theorem updN_other (f : Nat → dlnode) (i : Nat) (nd : dlnode) {j : Nat}
    (h : j ≠ i) : updN f i nd j = f j := by
  simp [updN, h]

theorem updN_apply (f : Nat → dlnode) (i : Nat) (nd : dlnode) (j : Nat) :
    updN f i nd j = if j = i then nd else f j := rfl

@[simp] theorem setNext_size (c : lrucache) (i x : Nat) :
    (setNext c i x).size = c.size := rfl
@[simp] theorem setNext_head (c : lrucache) (i x : Nat) :
    (setNext c i x).head = c.head := rfl
@[simp] theorem setNext_table (c : lrucache) (i x : Nat) :
    (setNext c i x).table = c.table := rfl
@[simp] theorem setPrev_size (c : lrucache) (i x : Nat) :
    (setPrev c i x).size = c.size := rfl
@[simp] theorem setPrev_head (c : lrucache) (i x : Nat) :
    (setPrev c i x).head = c.head := rfl
@[simp] theorem setPrev_table (c : lrucache) (i x : Nat) :
    (setPrev c i x).table = c.table := rfl

theorem setNext_nodes (c : lrucache) (i x j : Nat) :
    (setNext c i x).nodes j =
      if j = i then { c.nodes i with next := x } else c.nodes j := rfl

theorem setPrev_nodes (c : lrucache) (i x j : Nat) :
    (setPrev c i x).nodes j =
      if j = i then { c.nodes i with prev := x } else c.nodes j := rfl

@[simp] theorem setNext_nodes_key (c : lrucache) (i x j : Nat) :
    ((setNext c i x).nodes j).key = (c.nodes j).key := by
  rw [setNext_nodes]; split <;> simp_all

@[simp] theorem setNext_nodes_obj (c : lrucache) (i x j : Nat) :
    ((setNext c i x).nodes j).obj = (c.nodes j).obj := by
  rw [setNext_nodes]; split <;> simp_all

@[simp] theorem setPrev_nodes_key (c : lrucache) (i x j : Nat) :
    ((setPrev c i x).nodes j).key = (c.nodes j).key := by
  rw [setPrev_nodes]; split <;> simp_all

@[simp] theorem setPrev_nodes_obj (c : lrucache) (i x j : Nat) :
    ((setPrev c i x).nodes j).obj = (c.nodes j).obj := by
  rw [setPrev_nodes]; split <;> simp_all

@[simp] theorem mtf_size (c : lrucache) (i : Nat) : (mtf c i).size = c.size := rfl
@[simp] theorem mtf_head (c : lrucache) (i : Nat) : (mtf c i).head = c.head := rfl
@[simp] theorem mtf_table (c : lrucache) (i : Nat) : (mtf c i).table = c.table := rfl

@[simp] theorem mtf_nodes_key (c : lrucache) (i j : Nat) :
    ((mtf c i).nodes j).key = (c.nodes j).key := by
  simp only [mtf, mtf6, mtf5, mtf4, mtf3, mtf2, mtf1,
    setNext_nodes_key, setPrev_nodes_key]

@[simp] theorem mtf_nodes_obj (c : lrucache) (i j : Nat) :
    ((mtf c i).nodes j).obj = (c.nodes j).obj := by
  simp only [mtf, mtf6, mtf5, mtf4, mtf3, mtf2, mtf1,
    setNext_nodes_obj, setPrev_nodes_obj]

/-! ### Lemmas about the dict model -/

theorem lookupT_eq_none_iff (t : List (PyVal × Nat)) (k : PyVal) :
    lookupT t k = Option.none ↔ k ∉ t.map Prod.fst := by
  induction t with
  | nil => simp [lookupT]
  | cons p t ih =>
    by_cases h : p.1 = k
    · subst h
      simp [lookupT]
    · have h' : ¬(k = p.1) := fun hh => h hh.symm
      simp [lookupT, h, h', ih]

theorem lookupT_mem {t : List (PyVal × Nat)} {k : PyVal} {n : Nat}
    (h : lookupT t k = Option.some n) : (k, n) ∈ t := by
  induction t with
  | nil => simp [lookupT] at h
  | cons p t ih =>
    by_cases hp : p.1 = k
    · rw [lookupT, if_pos hp] at h
      have h2 := Option.some.inj h
      cases p with
      | mk p1 p2 =>
        simp only at hp h2
        subst hp; subst h2
        exact List.mem_cons_self _ _
    · rw [lookupT, if_neg hp] at h
      exact List.mem_cons_of_mem _ (ih h)

theorem lookupT_isSome_iff (t : List (PyVal × Nat)) (k : PyVal) :
    (lookupT t k).isSome = true ↔ k ∈ t.map Prod.fst := by
  cases hl : lookupT t k with
  | none =>
    have := (lookupT_eq_none_iff t k).mp hl
    simp [this]
  | some n =>
    have := lookupT_mem hl
    simp only [Option.isSome_some, true_iff]
    exact List.mem_map.mpr ⟨(k, n), this, rfl⟩

theorem mem_lookupT {t : List (PyVal × Nat)} {k : PyVal} {n : Nat}
    (hnd : (t.map Prod.fst).Nodup) (h : (k, n) ∈ t) :
    lookupT t k = Option.some n := by
  induction t with
  | nil => simp at h
  | cons p t ih =>
    rw [List.map_cons, List.nodup_cons] at hnd
    rcases List.mem_cons.mp h with h | h
    · rw [← h]
      simp [lookupT]
    · have hk : k ∈ t.map Prod.fst := List.mem_map.mpr ⟨(k, n), h, rfl⟩
      have hp : p.1 ≠ k := fun hh => hnd.1 (hh ▸ hk)
      rw [lookupT, if_neg hp]
      exact ih hnd.2 h

theorem lookupT_eraseT_self {t : List (PyVal × Nat)} {k : PyVal}
    (hnd : (t.map Prod.fst).Nodup) :
    lookupT (eraseT t k) k = Option.none := by
  induction t with
  | nil => simp [eraseT, lookupT]
  | cons p t ih =>
    rw [List.map_cons, List.nodup_cons] at hnd
    by_cases hp : p.1 = k
    · rw [eraseT, if_pos hp, lookupT_eq_none_iff]
      exact hp ▸ hnd.1
    · rw [eraseT, if_neg hp, lookupT, if_neg hp]
      exact ih hnd.2

theorem lookupT_eraseT_other (t : List (PyVal × Nat)) {k k' : PyVal}
    (h : k' ≠ k) : lookupT (eraseT t k) k' = lookupT t k' := by
  induction t with
  | nil => simp [eraseT]
  | cons p t ih =>
    by_cases hp : p.1 = k
    · have hp' : p.1 ≠ k' := fun hh => h (hh ▸ hp)
      rw [eraseT, if_pos hp, lookupT, if_neg hp']
    · rw [eraseT, if_neg hp]
      by_cases hp' : p.1 = k'
      · rw [lookupT, if_pos hp', lookupT, if_pos hp']
      · rw [lookupT, if_neg hp', lookupT, if_neg hp', ih]

theorem eraseT_subset {t : List (PyVal × Nat)} {k : PyVal} {p : PyVal × Nat}
    (h : p ∈ eraseT t k) : p ∈ t := by
  induction t with
  | nil => simp [eraseT] at h
  | cons q t ih =>
    by_cases hq : q.1 = k
    · rw [eraseT, if_pos hq] at h
      exact List.mem_cons_of_mem _ h
    · rw [eraseT, if_neg hq] at h
      rcases List.mem_cons.mp h with h | h
      · rw [h]
        exact List.mem_cons_self _ _
      · exact List.mem_cons_of_mem _ (ih h)

theorem eraseT_keys_sublist (t : List (PyVal × Nat)) (k : PyVal) :
    ((eraseT t k).map Prod.fst).Sublist (t.map Prod.fst) := by
  induction t with
  | nil => simp [eraseT]
  | cons q t ih =>
    by_cases hq : q.1 = k
    · rw [eraseT, if_pos hq]
      rw [List.map_cons]
      exact List.sublist_cons_self _ _
    · rw [eraseT, if_neg hq, List.map_cons, List.map_cons]
      exact ih.cons₂ q.1

theorem eraseT_keys_nodup {t : List (PyVal × Nat)} {k : PyVal}
    (hnd : (t.map Prod.fst).Nodup) : ((eraseT t k).map Prod.fst).Nodup :=
  (eraseT_keys_sublist t k).nodup hnd

theorem eraseT_length_of_mem {t : List (PyVal × Nat)} {k : PyVal}
    (h : k ∈ t.map Prod.fst) : (eraseT t k).length + 1 = t.length := by
  induction t with
  | nil => simp at h
  | cons q t ih =>
    by_cases hq : q.1 = k
    · rw [eraseT, if_pos hq]
      simp
    · rw [eraseT, if_neg hq]
      rw [List.map_cons, List.mem_cons] at h
      rcases h with h | h
      · exact absurd h.symm hq
      · have := ih h
        simp only [List.length_cons]
        omega


theorem insertT_of_absent {t : List (PyVal × Nat)} {k : PyVal} (n : Nat)
    (h : lookupT t k = Option.none) : insertT t k n = t ++ [(k, n)] := by
  induction t with
  | nil => simp [insertT]
  | cons p t ih =>
    by_cases hp : p.1 = k
    · simp [lookupT, hp] at h
    · simp [lookupT, hp] at h
      simp [insertT, hp, ih h]

theorem lookupT_append_right {t t' : List (PyVal × Nat)} {k : PyVal}
    (h : lookupT t k = Option.none) :
    lookupT (t ++ t') k = lookupT t' k := by
  induction t with
  | nil => simp
  | cons p t ih =>
    by_cases hp : p.1 = k
    · simp [lookupT, hp] at h
    · simp [lookupT, hp] at h ⊢
      exact ih h

theorem lookupT_append_left {t t' : List (PyVal × Nat)} {k : PyVal} {n : Nat}
    (h : lookupT t k = Option.some n) :
    lookupT (t ++ t') k = Option.some n := by
  induction t with
  | nil => simp [lookupT] at h
  | cons p t ih =>
    by_cases hp : p.1 = k <;> simp [lookupT, hp] at h ⊢
    · exact h
    · exact ih h

/-! ### Generic lemmas about `walkN` -/

@[simp] theorem walkN_zero (f : Nat → Nat) (x : Nat) : walkN f x 0 = [] := rfl

theorem walkN_succ (f : Nat → Nat) (x m : Nat) :
    walkN f x (m + 1) = x :: walkN f (f x) m := rfl

@[simp] theorem walkN_length (f : Nat → Nat) (x m : Nat) :
    (walkN f x m).length = m := by
  induction m generalizing x with
  | zero => rfl
  | succ m ih => simp [walkN_succ, ih]

theorem walkN_ne_nil (f : Nat → Nat) (x m : Nat) (h : 0 < m) :
    walkN f x m ≠ [] := by
  cases m with
  | zero => exact absurd h (by simp)
  | succ m => simp [walkN_succ]

theorem walkN_head (f : Nat → Nat) (x m : Nat) (h : 0 < m) :
    (walkN f x m).head? = Option.some x := by
  cases m with
  | zero => exact absurd h (by simp)
  | succ m => simp [walkN_succ]

theorem walkN_get (f : Nat → Nat) (x : Nat) :
    ∀ (m i : Nat) (h : i < m),
      (walkN f x m).get ⟨i, by simp [h]⟩ = f^[i] x := by
  intro m
  induction m generalizing x with
  | zero => intro i h; exact absurd h (by simp)
  | succ m ih =>
    intro i h
    cases i with
    | zero => rfl
    | succ i =>
      have := ih (f x) i (by omega)
      simpa [walkN_succ, Function.iterate_succ_apply] using this

theorem walkN_snoc (f : Nat → Nat) (x m : Nat) :
    walkN f x (m + 1) = walkN f x m ++ [f^[m] x] := by
  induction m generalizing x with
  | zero => rfl
  | succ m ih =>
    rw [walkN_succ, ih (f x), walkN_succ, Function.iterate_succ_apply]
    rfl

theorem walkN_getLast (f : Nat → Nat) (x m : Nat) (h : walkN f x (m + 1) ≠ []) :
    (walkN f x (m + 1)).getLast h = f^[m] x := by
  induction m generalizing x with
  | zero => rfl
  | succ m ih =>
    have hne : walkN f (f x) (m + 1) ≠ [] := walkN_ne_nil f (f x) (m + 1) (by omega)
    calc (walkN f x (m + 1 + 1)).getLast h
        = (walkN f (f x) (m + 1)).getLast hne := List.getLast_cons hne
      _ = f^[m] (f x) := ih (f x) hne
      _ = f^[m + 1] x := (Function.iterate_succ_apply f m x).symm

theorem walkN_chain (f : Nat → Nat) (m : Nat) (x : Nat) :
    List.Chain' (fun a b => f a = b) (walkN f x m) := by
  induction m generalizing x with
  | zero => simp
  | succ m ih =>
    rw [walkN_succ]
    cases m with
    | zero => simp
    | succ m =>
      rw [walkN_succ]
      exact List.Chain'.cons rfl (walkN_succ f (f x) m ▸ ih (f x))

theorem walkN_eq_of_chain (f : Nat → Nat) :
    ∀ (L : List Nat) (x : Nat), List.Chain' (fun a b => f a = b) L →
      L.head? = Option.some x → walkN f x L.length = L := by
  intro L
  induction L with
  | nil => intro x _ hh; simp at hh
  | cons a L ih =>
    intro x hc hh
    have hx : a = x := by simpa using hh
    subst hx
    cases L with
    | nil => rfl
    | cons b L =>
      have hc' := List.chain'_cons.mp hc
      have hfa : f a = b := hc'.1
      rw [List.length_cons, walkN_succ, hfa, ih b hc'.2 rfl]

theorem walkN_mem_lt {S : Nat} {f : Nat → Nat} (hf : ∀ i, i < S → f i < S) :
    ∀ (m x : Nat), x < S → ∀ y ∈ walkN f x m, y < S := by
  intro m
  induction m with
  | zero => intro x _ y hy; simp at hy
  | succ m ih =>
    intro x hx y hy
    rw [walkN_succ] at hy
    rcases List.mem_cons.mp hy with h | h
    · exact h ▸ hx
    · exact ih (f x) (hf x hx) y h

theorem walkN_cover {S : Nat} {f : Nat → Nat} {x : Nat}
    (hb : ∀ y ∈ walkN f x S, y < S) (hnd : (walkN f x S).Nodup) :
    ∀ y, y < S → y ∈ walkN f x S := by
  intro y hy
  have hsub : (walkN f x S).toFinset ⊆ Finset.range S := by
    intro z hz
    rw [List.mem_toFinset] at hz
    exact Finset.mem_range.mpr (hb z hz)
  have hcard : (Finset.range S).card ≤ (walkN f x S).toFinset.card := by
    rw [List.toFinset_card_of_nodup hnd]
    simp
  have := Finset.eq_of_subset_of_card_le hsub hcard
  rw [← List.mem_toFinset, this]
  exact Finset.mem_range.mpr hy

/-- Closure of the walk: in a single `S`-cycle (all elements in range,
`f` injective on range, walk without repetition), the successor of the
last visited node is the starting node. -/
theorem walkN_closure {S : Nat} {f : Nat → Nat} {x : Nat}
    (hf : ∀ i, i < S → f i < S)
    (hinj : ∀ i, i < S → ∀ j, j < S → f i = f j → i = j)
    (hx : x < S) (hnd : (walkN f x S).Nodup) (hS : 0 < S) :
    f (f^[S - 1] x) = x := by
  have hb : ∀ y ∈ walkN f x S, y < S := walkN_mem_lt hf S x hx
  have hlast_mem : f^[S - 1] x ∈ walkN f x S := by
    have hg : (walkN f x S).get ⟨S - 1, by simp; omega⟩ = f^[S - 1] x :=
      walkN_get f x S (S - 1) (by omega)
    rw [← hg]
    exact List.get_mem _ _ _
  have hnext_lt : f (f^[S - 1] x) < S := hf _ (hb _ hlast_mem)
  have hnext_mem : f (f^[S - 1] x) ∈ walkN f x S :=
    walkN_cover hb hnd _ hnext_lt
  rcases List.mem_iff_get.mp hnext_mem with ⟨⟨i, hi⟩, hget⟩
  have hiS : i < S := by simpa using hi
  rw [walkN_get f x S i hiS] at hget
  cases i with
  | zero => simpa using hget.symm
  | succ i =>
    exfalso
    have hiS1 : i + 1 < S := hiS
    have hilt : i < S := by omega
    rw [Function.iterate_succ_apply'] at hget
    have h2 : f^[i] x ∈ walkN f x S := by
      rw [← walkN_get f x S i hilt]
      exact List.get_mem _ _ _
    have heq : f^[S - 1] x = f^[i] x :=
      hinj _ (hb _ hlast_mem) _ (hb _ h2) hget.symm
    have hxi : (walkN f x S).get ⟨S - 1, by simp; omega⟩ =
        (walkN f x S).get ⟨i, by simp [hilt]⟩ := by
      rw [walkN_get f x S (S - 1) (by omega), walkN_get f x S i hilt, heq]
    have hfin := List.Nodup.get_inj_iff hnd |>.mp hxi
    have : S - 1 = i := by simpa using hfin
    omega

end lrucache

namespace lrucache

@[simp] theorem mtf1_head (c : lrucache) (i : Nat) : (mtf1 c i).head = c.head := rfl
@[simp] theorem mtf2_head (c : lrucache) (i : Nat) : (mtf2 c i).head = c.head := rfl
@[simp] theorem mtf3_head (c : lrucache) (i : Nat) : (mtf3 c i).head = c.head := rfl
@[simp] theorem mtf4_head (c : lrucache) (i : Nat) : (mtf4 c i).head = c.head := rfl

theorem dlnode_ext {a b : dlnode} (h1 : a.next = b.next) (h2 : a.prev = b.prev)
    (h3 : a.key = b.key) (h4 : a.obj = b.obj) : a = b := by
  cases a; cases b
  simp only at h1 h2 h3 h4
  subst h1; subst h2; subst h3; subst h4
  rfl

theorem mtf_nodes_mid (c : lrucache) (hwf : WFr c) {s : Nat} (hs : s < c.size)
    (hsh : s ≠ c.head) (hnxh : (c.nodes s).next ≠ c.head) (j : Nat) :
    (mtf c s).nodes j =
      { next := if j = (c.nodes c.head).prev then s
          else if j = s then c.head
          else if j = (c.nodes s).prev then (c.nodes s).next
          else (c.nodes j).next,
        prev := if j = c.head then s
          else if j = s then (c.nodes c.head).prev
          else if j = (c.nodes s).next then (c.nodes s).prev
          else (c.nodes j).prev,
        key := (c.nodes j).key, obj := (c.nodes j).obj } := by
  obtain ⟨hh, hw⟩ := hwf
  obtain ⟨hsn_lt, hsp_lt, hsnp, hspn⟩ := hw s hs
  obtain ⟨hhn_lt, hhp_lt, hhnp, hhpn⟩ := hw c.head hh
  have dts : (c.nodes c.head).prev ≠ s := fun he => hnxh (by rw [← he, hhpn])
  have dtp : (c.nodes c.head).prev ≠ (c.nodes s).prev := by
    intro he
    apply hsh
    rw [← hspn, ← he, hhpn]
  have dst : s ≠ (c.nodes c.head).prev := fun he => dts he.symm
  have dqh : (c.nodes s).next ≠ c.head := hnxh
  have dhq : c.head ≠ (c.nodes s).next := fun he => hnxh he.symm
  have dhs : c.head ≠ s := fun he => hsh he.symm
  set D1 := mtf1 c s with hD1
  set D2 := mtf2 D1 s with hD2
  set D3 := mtf3 D2 s with hD3
  set D4 := mtf4 D3 s with hD4
  set D5 := mtf5 D4 s with hD5
  have hM : mtf c s = mtf6 D5 s := by
    rw [mtf, ← hD1, ← hD2, ← hD3, ← hD4, ← hD5]
  have F1n : (D1.nodes s).next = (c.nodes s).next := by
    rw [hD1, mtf1, setNext_nodes]
    split_ifs with h0
    · rfl
    · rfl
  have F1p : (D1.nodes s).prev = (c.nodes s).prev := by
    rw [hD1, mtf1, setNext_nodes]
    split_ifs with h0
    · show (c.nodes ((c.nodes s).prev)).prev = (c.nodes s).prev
      rw [← h0]
      exact h0.symm
    · rfl
  have hD2h : D2.head = c.head := by rw [hD2, mtf2_head, hD1, mtf1_head]
  have F2 : (D2.nodes c.head).prev = (c.nodes c.head).prev := by
    rw [hD2, mtf2, F1n, F1p, setPrev_nodes, if_neg dhq]
    rw [hD1, mtf1, setNext_nodes]
    split_ifs with h0
    · show (c.nodes ((c.nodes s).prev)).prev = (c.nodes c.head).prev
      rw [← h0]
    · rfl
  have F3 : (D3.nodes c.head).prev = (c.nodes c.head).prev := by
    rw [hD3, mtf3, hD2h, setPrev_nodes, if_neg dhs]
    exact F2
  have F4 : (D3.nodes ((c.nodes c.head).prev)).next = c.head := by
    rw [hD3, mtf3, hD2h, F2, setPrev_nodes, if_neg dts]
    rw [hD2, mtf2, F1n, F1p, setPrev_nodes]
    by_cases htq : (c.nodes c.head).prev = (c.nodes s).next
    · rw [if_pos htq]
      show (D1.nodes ((c.nodes s).next)).next = c.head
      rw [hD1, mtf1, setNext_nodes]
      have hqp : (c.nodes s).next ≠ (c.nodes s).prev := fun he => dtp (htq.trans he)
      rw [if_neg hqp, ← htq]
      exact hhpn
    · rw [if_neg htq]
      rw [hD1, mtf1, setNext_nodes, if_neg dtp]
      exact hhpn
  have hD3h : D3.head = c.head := by rw [hD3, mtf3_head, hD2h]
  have F5 : (D4.nodes s).next = c.head := by
    rw [hD4, mtf4, hD3h, F3, F4, setNext_nodes, if_pos rfl]
  have F6 : (D5.nodes s).prev = (c.nodes c.head).prev := by
    rw [hD5, mtf5, F5, setPrev_nodes, if_neg hsh]
    rw [hD4, mtf4, hD3h, F3, F4, setNext_nodes, if_pos rfl]
    show (D3.nodes s).prev = (c.nodes c.head).prev
    rw [hD3, mtf3, hD2h, F2, setPrev_nodes, if_pos rfl]
  -- pointwise descriptions, layer by layer
  have L1n : ∀ i, (D1.nodes i).next =
      if i = (c.nodes s).prev then (c.nodes s).next else (c.nodes i).next := by
    intro i
    rw [hD1, mtf1, setNext_nodes]
    split_ifs with h0
    · rfl
    · rfl
  have L1p : ∀ i, (D1.nodes i).prev = (c.nodes i).prev := by
    intro i
    rw [hD1, mtf1, setNext_nodes]
    split_ifs with h0
    · rw [h0]
    · rfl
  have L2n : ∀ i, (D2.nodes i).next = (D1.nodes i).next := by
    intro i
    rw [hD2, mtf2, F1n, F1p, setPrev_nodes]
    split_ifs with h0
    · rw [h0]
    · rfl
  have L2p : ∀ i, (D2.nodes i).prev =
      if i = (c.nodes s).next then (c.nodes s).prev else (D1.nodes i).prev := by
    intro i
    rw [hD2, mtf2, F1n, F1p, setPrev_nodes]
    split_ifs with h0
    · rfl
    · rfl
  have L3n : ∀ i, (D3.nodes i).next = (D2.nodes i).next := by
    intro i
    rw [hD3, mtf3, hD2h, F2, setPrev_nodes]
    split_ifs with h0
    · rw [h0]
    · rfl
  have L3p : ∀ i, (D3.nodes i).prev =
      if i = s then (c.nodes c.head).prev else (D2.nodes i).prev := by
    intro i
    rw [hD3, mtf3, hD2h, F2, setPrev_nodes]
    split_ifs with h0
    · rfl
    · rfl
  have L4n : ∀ i, (D4.nodes i).next =
      if i = s then c.head else (D3.nodes i).next := by
    intro i
    rw [hD4, mtf4, hD3h, F3, F4, setNext_nodes]
    split_ifs with h0
    · rfl
    · rfl
  have L4p : ∀ i, (D4.nodes i).prev = (D3.nodes i).prev := by
    intro i
    rw [hD4, mtf4, hD3h, F3, F4, setNext_nodes]
    split_ifs with h0
    · rw [h0]
    · rfl
  have L5n : ∀ i, (D5.nodes i).next = (D4.nodes i).next := by
    intro i
    rw [hD5, mtf5, F5, setPrev_nodes]
    split_ifs with h0
    · rw [h0]
    · rfl
  have L5p : ∀ i, (D5.nodes i).prev =
      if i = c.head then s else (D4.nodes i).prev := by
    intro i
    rw [hD5, mtf5, F5, setPrev_nodes]
    split_ifs with h0
    · rfl
    · rfl
  have G5n : ∀ i, (D5.nodes i).next =
      if i = s then c.head
      else if i = (c.nodes s).prev then (c.nodes s).next
      else (c.nodes i).next := by
    intro i
    rw [L5n i, L4n i, L3n i, L2n i, L1n i]
  have G5p : ∀ i, (D5.nodes i).prev =
      if i = c.head then s
      else if i = s then (c.nodes c.head).prev
      else if i = (c.nodes s).next then (c.nodes s).prev
      else (c.nodes i).prev := by
    intro i
    rw [L5p i, L4p i, L3p i, L2p i, L1p i]
  have G5k : ∀ i, (D5.nodes i).key = (c.nodes i).key := by
    intro i
    rw [hD5, hD4, hD3, hD2, hD1]
    simp only [mtf5, mtf4, mtf3, mtf2, mtf1, setPrev_nodes_key, setNext_nodes_key]
  have G5o : ∀ i, (D5.nodes i).obj = (c.nodes i).obj := by
    intro i
    rw [hD5, hD4, hD3, hD2, hD1]
    simp only [mtf5, mtf4, mtf3, mtf2, mtf1, setPrev_nodes_obj, setNext_nodes_obj]
  have F6' : (D5.nodes s).prev = (c.nodes c.head).prev := F6
  rw [hM, mtf6, F6', setNext_nodes]
  apply dlnode_ext
  · rw [apply_ite dlnode.next]
    show (if j = (c.nodes c.head).prev then s else (D5.nodes j).next) = _
    rw [G5n j]
  · rw [apply_ite dlnode.prev]
    show (if j = (c.nodes c.head).prev then (D5.nodes ((c.nodes c.head).prev)).prev
        else (D5.nodes j).prev) = _
    rw [G5p ((c.nodes c.head).prev), G5p j]
    by_cases h1 : j = (c.nodes c.head).prev
    · rw [if_pos h1, h1]
    · rw [if_neg h1]
  · rw [apply_ite dlnode.key]
    show (if j = (c.nodes c.head).prev then (D5.nodes ((c.nodes c.head).prev)).key
        else (D5.nodes j).key) = _
    rw [G5k ((c.nodes c.head).prev), G5k j]
    by_cases h1 : j = (c.nodes c.head).prev
    · rw [if_pos h1, h1]
    · rw [if_neg h1]
  · rw [apply_ite dlnode.obj]
    show (if j = (c.nodes c.head).prev then (D5.nodes ((c.nodes c.head).prev)).obj
        else (D5.nodes j).obj) = _
    rw [G5o ((c.nodes c.head).prev), G5o j]
    by_cases h1 : j = (c.nodes c.head).prev
    · rw [if_pos h1, h1]
    · rw [if_neg h1]

end lrucache

namespace lrucache

/-- `mtf` on the head node leaves every node unchanged (WFr rings). -/
theorem mtf_nodes_self (c : lrucache) (hwf : WFr c) (j : Nat) :
    (mtf c c.head).nodes j = c.nodes j := by
  obtain ⟨hh, hw⟩ := hwf
  obtain ⟨hhn_lt, hhp_lt, hsnp, hspn⟩ := hw c.head hh
  -- hsnp : pv (nx h) = h,  hspn : nx (pv h) = h
  set D1 := mtf1 c c.head with hD1
  set D2 := mtf2 D1 c.head with hD2
  set D3 := mtf3 D2 c.head with hD3
  set D4 := mtf4 D3 c.head with hD4
  set D5 := mtf5 D4 c.head with hD5
  have hM : mtf c c.head = mtf6 D5 c.head := by
    rw [mtf, ← hD1, ← hD2, ← hD3, ← hD4, ← hD5]
  have F1n : (D1.nodes c.head).next = (c.nodes c.head).next := by
    rw [hD1, mtf1, setNext_nodes]
    split_ifs with h0
    · rfl
    · rfl
  have F1p : (D1.nodes c.head).prev = (c.nodes c.head).prev := by
    rw [hD1, mtf1, setNext_nodes]
    split_ifs with h0
    · show (c.nodes ((c.nodes c.head).prev)).prev = (c.nodes c.head).prev
      rw [← h0]
      exact h0.symm
    · rfl
  have L1n : ∀ i, (D1.nodes i).next =
      if i = (c.nodes c.head).prev then (c.nodes c.head).next else (c.nodes i).next := by
    intro i
    rw [hD1, mtf1, setNext_nodes]
    split_ifs with h0
    · rfl
    · rfl
  have L1p : ∀ i, (D1.nodes i).prev = (c.nodes i).prev := by
    intro i
    rw [hD1, mtf1, setNext_nodes]
    split_ifs with h0
    · rw [h0]
    · rfl
  have hD2h : D2.head = c.head := by rw [hD2, mtf2_head, hD1, mtf1_head]
  have L2n : ∀ i, (D2.nodes i).next = (D1.nodes i).next := by
    intro i
    rw [hD2, mtf2, F1n, F1p, setPrev_nodes]
    split_ifs with h0
    · rw [h0]
    · rfl
  have L2p : ∀ i, (D2.nodes i).prev =
      if i = (c.nodes c.head).next then (c.nodes c.head).prev else (D1.nodes i).prev := by
    intro i
    rw [hD2, mtf2, F1n, F1p, setPrev_nodes]
    split_ifs with h0
    · rfl
    · rfl
  have F2 : (D2.nodes c.head).prev = (c.nodes c.head).prev := by
    rw [L2p c.head]
    split_ifs with h0
    · rfl
    · exact L1p c.head
  have L3n : ∀ i, (D3.nodes i).next = (D2.nodes i).next := by
    intro i
    rw [hD3, mtf3, hD2h, F2, setPrev_nodes]
    split_ifs with h0
    · rw [h0]
    · rfl
  have L3p : ∀ i, (D3.nodes i).prev =
      if i = c.head then (c.nodes c.head).prev else (D2.nodes i).prev := by
    intro i
    rw [hD3, mtf3, hD2h, F2, setPrev_nodes]
    split_ifs with h0
    · rfl
    · rfl
  have hD3h : D3.head = c.head := by rw [hD3, mtf3_head, hD2h]
  have F3 : (D3.nodes c.head).prev = (c.nodes c.head).prev := by
    rw [L3p c.head, if_pos rfl]
  have F4 : (D3.nodes ((c.nodes c.head).prev)).next = (c.nodes c.head).next := by
    rw [L3n _, L2n _, L1n _, if_pos rfl]
  have L4n : ∀ i, (D4.nodes i).next =
      if i = c.head then (c.nodes c.head).next else (D3.nodes i).next := by
    intro i
    rw [hD4, mtf4, hD3h, F3, F4, setNext_nodes]
    split_ifs with h0
    · rfl
    · rfl
  have L4p : ∀ i, (D4.nodes i).prev = (D3.nodes i).prev := by
    intro i
    rw [hD4, mtf4, hD3h, F3, F4, setNext_nodes]
    split_ifs with h0
    · rw [h0]
    · rfl
  have F5 : (D4.nodes c.head).next = (c.nodes c.head).next := by
    rw [L4n c.head, if_pos rfl]
  have L5n : ∀ i, (D5.nodes i).next = (D4.nodes i).next := by
    intro i
    rw [hD5, mtf5, F5, setPrev_nodes]
    split_ifs with h0
    · rw [h0]
    · rfl
  have L5p : ∀ i, (D5.nodes i).prev =
      if i = (c.nodes c.head).next then c.head else (D4.nodes i).prev := by
    intro i
    rw [hD5, mtf5, F5, setPrev_nodes]
    split_ifs with h0
    · rfl
    · rfl
  have F6 : (D5.nodes c.head).prev = (c.nodes c.head).prev := by
    rw [L5p c.head]
    split_ifs with h0
    · rw [← h0] at hsnp
      exact hsnp.symm
    · rw [L4p c.head, F3]
  apply dlnode_ext
  · rw [hM, mtf6, F6, setNext_nodes]
    rw [apply_ite dlnode.next]
    show (if j = (c.nodes c.head).prev then c.head else (D5.nodes j).next) = _
    rw [L5n j, L4n j, L3n j, L2n j, L1n j]
    by_cases hjp : j = (c.nodes c.head).prev
    · rw [if_pos hjp, hjp]
      exact hspn.symm
    · rw [if_neg hjp]
      by_cases hjh : j = c.head
      · rw [if_pos hjh, hjh]
      · rw [if_neg hjh, if_neg hjp]
  · rw [hM, mtf6, F6, setNext_nodes]
    rw [apply_ite dlnode.prev]
    show (if j = (c.nodes c.head).prev then (D5.nodes ((c.nodes c.head).prev)).prev
        else (D5.nodes j).prev) = _
    have hval : ∀ i, (D5.nodes i).prev =
        if i = (c.nodes c.head).next then c.head
        else if i = c.head then (c.nodes c.head).prev
        else if i = (c.nodes c.head).next then (c.nodes c.head).prev
        else (c.nodes i).prev := by
      intro i
      rw [L5p i, L4p i, L3p i, L2p i, L1p i]
    have hres : ∀ i, (D5.nodes i).prev = (c.nodes i).prev := by
      intro i
      rw [hval i]
      by_cases h1 : i = (c.nodes c.head).next
      · rw [if_pos h1, h1]
        exact hsnp.symm
      · rw [if_neg h1]
        by_cases h2 : i = c.head
        · rw [if_pos h2, h2]
        · rw [if_neg h2, if_neg h1]
    rw [hres _, hres j]
    split_ifs with h1
    · rw [h1]
    · rfl
  · exact mtf_nodes_key c c.head j
  · exact mtf_nodes_obj c c.head j

end lrucache

namespace lrucache

/-- `mtf` on the node directly preceding the head leaves every node
unchanged (WFr rings). -/
theorem mtf_nodes_tail (c : lrucache) (hwf : WFr c) {s : Nat} (hs : s < c.size)
    (hsh : s ≠ c.head) (hnx : (c.nodes s).next = c.head) (j : Nat) :
    (mtf c s).nodes j = c.nodes j := by
  obtain ⟨hh, hw⟩ := hwf
  obtain ⟨hsn_lt, hsp_lt, hsnp, hspn⟩ := hw s hs
  -- hsnp : pv (nx s) = s,  hspn : nx (pv s) = s
  have hph : (c.nodes c.head).prev = s := by rw [← hnx]; exact hsnp
  have dps : (c.nodes s).prev ≠ s := by
    intro he
    apply hsh
    rw [← hnx]
    rw [he] at hspn
    rw [hspn]
  have dhs : c.head ≠ s := fun he => hsh he.symm
  set D1 := mtf1 c s with hD1
  set D2 := mtf2 D1 s with hD2
  set D3 := mtf3 D2 s with hD3
  set D4 := mtf4 D3 s with hD4
  set D5 := mtf5 D4 s with hD5
  have hM : mtf c s = mtf6 D5 s := by
    rw [mtf, ← hD1, ← hD2, ← hD3, ← hD4, ← hD5]
  have F1n : (D1.nodes s).next = (c.nodes s).next := by
    rw [hD1, mtf1, setNext_nodes]
    split_ifs with h0
    · rfl
    · rfl
  have F1p : (D1.nodes s).prev = (c.nodes s).prev := by
    rw [hD1, mtf1, setNext_nodes]
    split_ifs with h0
    · show (c.nodes ((c.nodes s).prev)).prev = (c.nodes s).prev
      rw [← h0]
      exact h0.symm
    · rfl
  have L1n : ∀ i, (D1.nodes i).next =
      if i = (c.nodes s).prev then (c.nodes s).next else (c.nodes i).next := by
    intro i
    rw [hD1, mtf1, setNext_nodes]
    split_ifs with h0
    · rfl
    · rfl
  have L1p : ∀ i, (D1.nodes i).prev = (c.nodes i).prev := by
    intro i
    rw [hD1, mtf1, setNext_nodes]
    split_ifs with h0
    · rw [h0]
    · rfl
  have hD2h : D2.head = c.head := by rw [hD2, mtf2_head, hD1, mtf1_head]
  have L2n : ∀ i, (D2.nodes i).next = (D1.nodes i).next := by
    intro i
    rw [hD2, mtf2, F1n, F1p, setPrev_nodes]
    split_ifs with h0
    · rw [h0]
    · rfl
  have L2p : ∀ i, (D2.nodes i).prev =
      if i = (c.nodes s).next then (c.nodes s).prev else (D1.nodes i).prev := by
    intro i
    rw [hD2, mtf2, F1n, F1p, setPrev_nodes]
    split_ifs with h0
    · rfl
    · rfl
  have F2 : (D2.nodes c.head).prev = (c.nodes s).prev := by
    rw [L2p c.head, if_pos hnx.symm]
  have L3n : ∀ i, (D3.nodes i).next = (D2.nodes i).next := by
    intro i
    rw [hD3, mtf3, hD2h, F2, setPrev_nodes]
    split_ifs with h0
    · rw [h0]
    · rfl
  have L3p : ∀ i, (D3.nodes i).prev =
      if i = s then (c.nodes s).prev else (D2.nodes i).prev := by
    intro i
    rw [hD3, mtf3, hD2h, F2, setPrev_nodes]
    split_ifs with h0
    · rfl
    · rfl
  have hD3h : D3.head = c.head := by rw [hD3, mtf3_head, hD2h]
  have F3 : (D3.nodes c.head).prev = (c.nodes s).prev := by
    rw [L3p c.head, if_neg dhs]
    exact F2
  have F4 : (D3.nodes ((c.nodes s).prev)).next = c.head := by
    rw [L3n _, L2n _, L1n _, if_pos rfl]
    exact hnx
  have L4n : ∀ i, (D4.nodes i).next =
      if i = s then c.head else (D3.nodes i).next := by
    intro i
    rw [hD4, mtf4, hD3h, F3, F4, setNext_nodes]
    split_ifs with h0
    · rfl
    · rfl
  have L4p : ∀ i, (D4.nodes i).prev = (D3.nodes i).prev := by
    intro i
    rw [hD4, mtf4, hD3h, F3, F4, setNext_nodes]
    split_ifs with h0
    · rw [h0]
    · rfl
  have F5 : (D4.nodes s).next = c.head := by
    rw [L4n s, if_pos rfl]
  have L5n : ∀ i, (D5.nodes i).next = (D4.nodes i).next := by
    intro i
    rw [hD5, mtf5, F5, setPrev_nodes]
    split_ifs with h0
    · rw [h0]
    · rfl
  have L5p : ∀ i, (D5.nodes i).prev =
      if i = c.head then s else (D4.nodes i).prev := by
    intro i
    rw [hD5, mtf5, F5, setPrev_nodes]
    split_ifs with h0
    · rfl
    · rfl
  have F6 : (D5.nodes s).prev = (c.nodes s).prev := by
    rw [L5p s, if_neg hsh, L4p s, L3p s, if_pos rfl]
  apply dlnode_ext
  · rw [hM, mtf6, F6, setNext_nodes]
    rw [apply_ite dlnode.next]
    show (if j = (c.nodes s).prev then s else (D5.nodes j).next) = _
    rw [L5n j, L4n j, L3n j, L2n j, L1n j]
    by_cases hjp : j = (c.nodes s).prev
    · rw [if_pos hjp, hjp]
      exact hspn.symm
    · rw [if_neg hjp]
      by_cases hjs : j = s
      · rw [if_pos hjs, hjs]
        exact hnx.symm
      · rw [if_neg hjs, if_neg hjp]
  · rw [hM, mtf6, F6, setNext_nodes]
    rw [apply_ite dlnode.prev]
    show (if j = (c.nodes s).prev then (D5.nodes ((c.nodes s).prev)).prev
        else (D5.nodes j).prev) = _
    have hres : ∀ i, (D5.nodes i).prev = (c.nodes i).prev := by
      intro i
      rw [L5p i, L4p i, L3p i, L2p i, L1p i]
      by_cases h1 : i = c.head
      · rw [if_pos h1, h1, hph]
      · rw [if_neg h1]
        by_cases h2 : i = s
        · rw [if_pos h2, h2]
        · rw [if_neg h2, if_neg (hnx ▸ h1 : ¬ i = (c.nodes s).next)]
    rw [hres _, hres j]
    split_ifs with h1
    · rw [h1]
    · rfl
  · exact mtf_nodes_key c s j
  · exact mtf_nodes_obj c s j

end lrucache

namespace lrucache

theorem WFr_congr {c c' : lrucache} (hn : ∀ j, c'.nodes j = c.nodes j)
    (hh : c'.head = c.head) (hs : c'.size = c.size) (h : WFr c) : WFr c' := by
  unfold WFr at h ⊢
  simp only [hn, hh, hs]
  exact h

/-- `mtf` preserves ring well-formedness. -/
theorem WFr_mtf (c : lrucache) (hwf : WFr c) {s : Nat} (hs : s < c.size) :
    WFr (mtf c s) := by
  by_cases hsh : s = c.head
  · subst hsh
    exact WFr_congr (mtf_nodes_self c hwf) rfl rfl hwf
  by_cases hnxh : (c.nodes s).next = c.head
  · exact WFr_congr (mtf_nodes_tail c hwf hs hsh hnxh) rfl rfl hwf
  have hh := hwf.1
  have hw := hwf.2
  obtain ⟨hsn_lt, hsp_lt, hsnp, hspn⟩ := hw s hs
  obtain ⟨hhn_lt, hhp_lt, hhnp, hhpn⟩ := hw c.head hh
  have dts : (c.nodes c.head).prev ≠ s := fun he => hnxh (by rw [← he, hhpn])
  have dtp : (c.nodes c.head).prev ≠ (c.nodes s).prev := by
    intro he
    apply hsh
    rw [← hspn, ← he, hhpn]
  have dst : s ≠ (c.nodes c.head).prev := fun he => dts he.symm
  have dsh : ¬ s = c.head := hsh
  constructor
  · exact hh
  intro i hi
  simp only [mtf_nodes_mid c hwf hs hsh hnxh, mtf_size]
  refine ⟨?_, ?_, ?_, ?_⟩
  · by_cases h1 : i = (c.nodes c.head).prev
    · rw [if_pos h1]
      exact hs
    rw [if_neg h1]
    by_cases h2 : i = s
    · rw [if_pos h2]
      exact hh
    rw [if_neg h2]
    by_cases h3 : i = (c.nodes s).prev
    · rw [if_pos h3]
      exact hsn_lt
    rw [if_neg h3]
    exact (hw i hi).1
  · by_cases h1 : i = c.head
    · rw [if_pos h1]
      exact hs
    rw [if_neg h1]
    by_cases h2 : i = s
    · rw [if_pos h2]
      exact hhp_lt
    rw [if_neg h2]
    by_cases h3 : i = (c.nodes s).next
    · rw [if_pos h3]
      exact hsp_lt
    rw [if_neg h3]
    exact (hw i hi).2.1
  · -- prev of next is the node itself
    obtain ⟨hin_lt, hip_lt, hinp, hipn⟩ := hw i hi
    by_cases h1 : i = (c.nodes c.head).prev
    · rw [if_pos h1, if_neg dsh, if_pos rfl]
      exact h1.symm
    rw [if_neg h1]
    by_cases h2 : i = s
    · subst h2
      rw [if_pos rfl, if_pos rfl]
    rw [if_neg h2]
    by_cases h3 : i = (c.nodes s).prev
    · subst h3
      rw [if_pos rfl, if_neg hnxh]
      have hqs : ¬ (c.nodes s).next = s := by
        intro he
        apply h2
        rw [he] at hsnp
        exact hsnp
      rw [if_neg hqs, if_pos rfl]
    rw [if_neg h3]
    have e1 : ¬ (c.nodes i).next = c.head := by
      intro he
      apply h1
      rw [he] at hinp
      exact hinp.symm
    have e2 : ¬ (c.nodes i).next = s := by
      intro he
      apply h3
      rw [he] at hinp
      exact hinp.symm
    have e3 : ¬ (c.nodes i).next = (c.nodes s).next := by
      intro he
      apply h2
      rw [he] at hinp
      rw [← hinp, hsnp]
    rw [if_neg e1, if_neg e2, if_neg e3]
    exact hinp
  · -- next of prev is the node itself
    obtain ⟨hin_lt, hip_lt, hinp, hipn⟩ := hw i hi
    by_cases h1 : i = c.head
    · rw [if_pos h1, if_neg dst, if_pos rfl]
      exact h1.symm
    rw [if_neg h1]
    by_cases h2 : i = s
    · subst h2
      rw [if_pos rfl, if_pos rfl]
    rw [if_neg h2]
    by_cases h3 : i = (c.nodes s).next
    · subst h3
      rw [if_pos rfl]
      have hps : ¬ (c.nodes s).prev = (c.nodes c.head).prev := fun he => dtp he.symm
      have hps2 : ¬ (c.nodes s).prev = s := by
        intro he
        apply h2
        rw [he] at hspn
        exact hspn
      rw [if_neg hps, if_neg hps2, if_pos rfl]
    rw [if_neg h3]
    have e1 : ¬ (c.nodes i).prev = (c.nodes c.head).prev := by
      intro he
      apply h1
      rw [he] at hipn
      rw [← hipn, hhpn]
    have e2 : ¬ (c.nodes i).prev = s := by
      intro he
      apply h3
      rw [he] at hipn
      exact hipn.symm
    have e3 : ¬ (c.nodes i).prev = (c.nodes s).prev := by
      intro he
      apply h2
      rw [he] at hipn
      rw [← hipn, hspn]
    rw [if_neg e1, if_neg e2, if_neg e3]
    exact hipn

end lrucache

namespace lrucache

theorem walkN_take (f : Nat → Nat) (x : Nat) :
    ∀ m m' : Nat, m ≤ m' → walkN f x m = (walkN f x m').take m := by
  intro m
  induction m generalizing x with
  | zero => intro m' _; simp
  | succ m ih =>
    intro m' hm
    cases m' with
    | zero => omega
    | succ m' =>
      rw [walkN_succ, walkN_succ, List.take_succ_cons, ih (f x) m' (by omega)]

theorem chain_congr_points {f g : Nat → Nat} :
    ∀ L : List Nat, (∀ a ∈ L.dropLast, f a = g a) →
      List.Chain' (fun a b => f a = b) L → List.Chain' (fun a b => g a = b) L := by
  intro L
  induction L with
  | nil => intro _ _; simp
  | cons a L ih =>
    intro hag hch
    cases L with
    | nil => simp
    | cons b L =>
      have h1 := List.chain'_cons.mp hch
      refine List.chain'_cons.mpr ⟨?_, ?_⟩
      · rw [← hag a (by simp [List.dropLast_cons₂])]
        exact h1.1
      · refine ih ?_ h1.2
        intro x hx
        refine hag x ?_
        rw [List.dropLast_cons₂]
        exact List.mem_cons_of_mem _ hx

theorem erase_getLast_append :
    ∀ (L : List Nat), L.Nodup → ∀ hne : L ≠ [],
      L.erase (L.getLast hne) ++ [L.getLast hne] = L := by
  intro L
  induction L with
  | nil => intro _ h; exact absurd rfl h
  | cons a L ih =>
    intro hnd hne
    cases L with
    | nil => simp
    | cons b L' =>
      have hne' : b :: L' ≠ [] := by simp
      have hnd' := List.nodup_cons.mp hnd
      have ha : a ≠ (b :: L').getLast hne' := by
        intro he
        exact hnd'.1 (he ▸ List.getLast_mem hne')
      rw [List.getLast_cons hne', List.erase_cons_tail (by simpa using ha),
        List.cons_append, ih hnd'.2 hne']

theorem walkL_ne_nil (c : lrucache) (hpos : 0 < c.size) : walkL c ≠ [] :=
  walkN_ne_nil _ _ _ hpos

theorem walkL_elements (c : lrucache) (hwf : WFr c) : ∀ y ∈ walkL c, y < c.size :=
  walkN_mem_lt (fun i hi => (hwf.2 i hi).1) c.size c.head hwf.1

theorem walkL_cover (c : lrucache) (hwf : WFr c) (hnd : (walkL c).Nodup) :
    ∀ y, y < c.size → y ∈ walkL c :=
  walkN_cover (walkL_elements c hwf) hnd

theorem next_inj (c : lrucache) (hwf : WFr c) :
    ∀ i, i < c.size → ∀ j, j < c.size →
      (c.nodes i).next = (c.nodes j).next → i = j := by
  intro i hi j hj hij
  have h1 := (hwf.2 i hi).2.2.1
  have h2 := (hwf.2 j hj).2.2.1
  rw [← h1, hij, h2]

theorem walkN_getLastQ (f : Nat → Nat) (x m : Nat) :
    (walkN f x (m + 1)).getLast? = Option.some (f^[m] x) := by
  rw [List.getLast?_eq_getLast _ (walkN_ne_nil f x (m + 1) (by omega)),
    walkN_getLast]

theorem walkL_next_getLast (c : lrucache) (hwf : WFr c)
    (hnd : (walkL c).Nodup) (hne : walkL c ≠ []) :
    (c.nodes ((walkL c).getLast hne)).next = c.head := by
  have hpos : 0 < c.size := Nat.pos_of_ne_zero (by
    intro h0
    exact hne (by unfold walkL; rw [h0]; rfl))
  have h1 : (walkL c).getLast? = Option.some ((walkL c).getLast hne) :=
    List.getLast?_eq_getLast _ hne
  have h2 : (walkL c).getLast? =
      Option.some ((fun i => (c.nodes i).next)^[c.size - 1] c.head) := by
    obtain ⟨m, hm⟩ : ∃ m, c.size = m + 1 := ⟨c.size - 1, by omega⟩
    unfold walkL
    rw [hm, walkN_getLastQ]
    have he : m = m + 1 - 1 := by omega
    rw [← he]
  have hlast : (walkL c).getLast hne =
      (fun i => (c.nodes i).next)^[c.size - 1] c.head := by
    rw [h1] at h2
    exact Option.some.inj h2
  rw [hlast]
  exact walkN_closure (S := c.size) (f := fun i => (c.nodes i).next)
    (x := c.head) (fun i hi => (hwf.2 i hi).1)
    (next_inj c hwf) hwf.1 hnd hpos

theorem walkL_getLast_eq_prev_head (c : lrucache) (hwf : WFr c)
    (hnd : (walkL c).Nodup) (hne : walkL c ≠ []) :
    (walkL c).getLast hne = (c.nodes c.head).prev := by
  have hcl := walkL_next_getLast c hwf hnd hne
  have hzlt : (walkL c).getLast hne < c.size :=
    walkL_elements c hwf _ (List.getLast_mem hne)
  have := (hwf.2 _ hzlt).2.2.1
  rw [hcl] at this
  exact this.symm

end lrucache

namespace lrucache

theorem getLast_not_mem_dropLast :
    ∀ (l : List Nat), l.Nodup → ∀ h : l ≠ [], l.getLast h ∉ l.dropLast := by
  intro l
  induction l with
  | nil => intro _ h; exact absurd rfl h
  | cons a l ih =>
    intro hnd hne
    cases l with
    | nil => simp
    | cons b l' =>
      have hne' : b :: l' ≠ [] := by simp
      have hnd' := List.nodup_cons.mp hnd
      rw [List.getLast_cons hne', List.dropLast_cons₂]
      intro hmem
      rcases List.mem_cons.mp hmem with h1 | h1
      · exact hnd'.1 (h1 ▸ List.getLast_mem hne')
      · exact ih hnd'.2 hne' h1

theorem mem_of_getLastQ {l : List Nat} {a : Nat}
    (h : l.getLast? = Option.some a) : a ∈ l := by
  cases l with
  | nil => simp at h
  | cons b l' =>
    have hne : b :: l' ≠ [] := by simp
    rw [List.getLast?_eq_getLast _ hne] at h
    exact (Option.some.inj h) ▸ List.getLast_mem hne

/-- After `mtf` on a non-head slot, the ring walk is the old walk with the
slot moved to the back (i.e. spliced in directly before the head). -/
theorem mtf_walkL (c : lrucache) (hwf : WFr c) (hnd : (walkL c).Nodup) {s : Nat}
    (hs : s < c.size) (hsh : s ≠ c.head) :
    walkL (mtf c s) = (walkL c).erase s ++ [s] := by
  have hpos : 0 < c.size := Nat.lt_of_le_of_lt (Nat.zero_le _) hwf.1
  have hne : walkL c ≠ [] := walkL_ne_nil c hpos
  by_cases hnxh : (c.nodes s).next = c.head
  · -- the slot already directly precedes the head: `mtf` is the identity
    have hfun : (fun i => ((mtf c s).nodes i).next) = fun i => (c.nodes i).next :=
      funext fun i => by rw [mtf_nodes_tail c hwf hs hsh hnxh i]
    have hwalk : walkL (mtf c s) = walkL c := by
      unfold walkL
      rw [mtf_size, mtf_head, hfun]
    have hzs : (walkL c).getLast hne = s := by
      have h1 := walkL_next_getLast c hwf hnd hne
      have hzlt : (walkL c).getLast hne < c.size :=
        walkL_elements c hwf _ (List.getLast_mem hne)
      exact next_inj c hwf _ hzlt s hs (h1.trans hnxh.symm)
    rw [hwalk, ← hzs]
    exact (erase_getLast_append _ hnd hne).symm
  · -- the generic splice
    have hh := hwf.1
    have hw := hwf.2
    obtain ⟨hsn_lt, hsp_lt, hsnp, hspn⟩ := hw s hs
    obtain ⟨hhn_lt, hhp_lt, hhnp, hhpn⟩ := hw c.head hh
    have dtp : (c.nodes c.head).prev ≠ (c.nodes s).prev := by
      intro he
      apply hsh
      rw [← hspn, ← he, hhpn]
    have dts : (c.nodes c.head).prev ≠ s := fun he => hnxh (by rw [← he, hhpn])
    have hsmem : s ∈ walkL c := walkL_cover c hwf hnd s hs
    obtain ⟨A, B, hAB⟩ := List.append_of_mem hsmem
    have hndAB : (A ++ s :: B).Nodup := hAB ▸ hnd
    obtain ⟨hndA, hndSB, hdisj⟩ := List.nodup_append.mp hndAB
    have hsA : s ∉ A := fun hmem => hdisj hmem (List.mem_cons_self s B)
    have hsB : s ∉ B := (List.nodup_cons.mp hndSB).1
    have hndB : B.Nodup := (List.nodup_cons.mp hndSB).2
    have hchL : List.Chain' (fun a b => (c.nodes a).next = b) (A ++ s :: B) := by
      rw [← hAB]
      unfold walkL
      exact walkN_chain _ _ _
    obtain ⟨hchA, hchSB, hjA⟩ := List.chain'_append.mp hchL
    have hLhead : (walkL c).head? = Option.some c.head := by
      unfold walkL
      exact walkN_head _ _ _ hpos
    have hAne : A ≠ [] := by
      intro h0
      rw [hAB, h0] at hLhead
      simp at hLhead
      exact hsh hLhead
    have hBne : B ≠ [] := by
      intro h0
      apply hnxh
      have h1 := walkL_next_getLast c hwf hnd hne
      have h3 : (walkL c).getLast? = Option.some s := by
        rw [hAB, h0]
        exact List.getLast?_concat A
      have h4 : (walkL c).getLast? = Option.some ((walkL c).getLast hne) :=
        List.getLast?_eq_getLast _ hne
      rw [h4] at h3
      rw [Option.some.inj h3] at h1
      exact h1
    obtain ⟨b, B', hB⟩ := List.exists_cons_of_ne_nil hBne
    have hchSB2 := List.chain'_cons.mp (hB ▸ hchSB)
    have hbQ : b = (c.nodes s).next := hchSB2.1.symm
    have hQmem : (c.nodes s).next ∈ B := by
      rw [hB, ← hbQ]
      exact List.mem_cons_self b B'
    have dQs : (c.nodes s).next ≠ s := fun he => hsB (he ▸ hQmem)
    have dPs : (c.nodes s).prev ≠ s := by
      intro he
      apply dQs
      rw [he] at hspn
      exact hspn
    have hAin : ∀ a ∈ A, a ∈ walkL c := by
      intro a ha
      rw [hAB]
      exact List.mem_append_left _ ha
    have hlastA : A.getLast hAne = (c.nodes s).prev := by
      have h5 : (c.nodes (A.getLast hAne)).next = s := by
        apply hjA (A.getLast hAne) _ s
        · simp
        · rw [List.getLast?_eq_getLast _ hAne]
          rfl
      have hglt : A.getLast hAne < c.size :=
        walkL_elements c hwf _ (hAin _ (List.getLast_mem hAne))
      have h6 := (hw _ hglt).2.2.1
      rw [h5] at h6
      exact h6.symm
    have hBq : B.getLast? = Option.some (B.getLast hBne) :=
      List.getLast?_eq_getLast _ hBne
    have hSBlast : (s :: B).getLast? = Option.some (B.getLast hBne) := by
      rw [show s :: B = [s] ++ B from rfl, List.getLast?_append, hBq]
      rfl
    have hLlast2 : (walkL c).getLast? = Option.some (B.getLast hBne) := by
      rw [hAB, List.getLast?_append, hSBlast]
      rfl
    have hTlast : B.getLast hBne = (c.nodes c.head).prev := by
      have hzQ : (walkL c).getLast? = Option.some ((c.nodes c.head).prev) := by
        rw [List.getLast?_eq_getLast _ hne, walkL_getLast_eq_prev_head c hwf hnd hne]
      rw [hzQ] at hLlast2
      exact (Option.some.inj hLlast2).symm
    have hTmem : (c.nodes c.head).prev ∈ B := hTlast ▸ List.getLast_mem hBne
    have hF : ∀ i, ((mtf c s).nodes i).next =
        if i = (c.nodes c.head).prev then s
        else if i = s then c.head
        else if i = (c.nodes s).prev then (c.nodes s).next
        else (c.nodes i).next := by
      intro i
      rw [mtf_nodes_mid c hwf hs hsh hnxh i]
    have herase : (walkL c).erase s = A ++ B := by
      rw [hAB, List.erase_append_right _ hsA, List.erase_cons_head]
    have hchain : List.Chain' (fun a b => ((mtf c s).nodes a).next = b)
        ((A ++ B) ++ [s]) := by
      apply List.chain'_append.mpr
      refine ⟨?_, ?_, ?_⟩
      · apply List.chain'_append.mpr
        refine ⟨?_, ?_, ?_⟩
        · refine chain_congr_points A ?_ hchA
          intro a ha
          have haA : a ∈ A := List.dropLast_subset A ha
          have h7 : a ≠ (c.nodes c.head).prev := by
            intro he
            exact hdisj (he ▸ haA) (List.mem_cons_of_mem _ hTmem)
          have h8 : a ≠ s := fun he => hsA (he ▸ haA)
          have h9 : a ≠ (c.nodes s).prev := by
            intro he
            rw [← hlastA] at he
            exact getLast_not_mem_dropLast A hndA hAne (he ▸ ha)
          rw [hF a, if_neg h7, if_neg h8, if_neg h9]
        · refine chain_congr_points B ?_ ((List.chain'_cons'.mp hchSB).2)
          intro a ha
          have haB : a ∈ B := List.dropLast_subset B ha
          have h7 : a ≠ (c.nodes c.head).prev := by
            intro he
            rw [← hTlast] at he
            exact getLast_not_mem_dropLast B hndB hBne (he ▸ ha)
          have h8 : a ≠ s := fun he => hsB (he ▸ haB)
          have h9 : a ≠ (c.nodes s).prev := by
            intro he
            apply hdisj ((hlastA ▸ he : a = A.getLast hAne) ▸ List.getLast_mem hAne)
            exact List.mem_cons_of_mem _ haB
          rw [hF a, if_neg h7, if_neg h8, if_neg h9]
        · intro x hx y hy
          have hxP : x = (c.nodes s).prev := by
            have hlastAq : A.getLast? = Option.some ((c.nodes s).prev) := by
              rw [List.getLast?_eq_getLast _ hAne, hlastA]
            rw [hlastAq] at hx
            simp at hx
            exact hx.symm
          have hyQ : y = (c.nodes s).next := by
            rw [hB] at hy
            simp at hy
            exact hy ▸ hbQ
          rw [hF x, hxP, if_neg (fun he => dtp he.symm), if_neg dPs, if_pos rfl, hyQ]
      · simp
      · intro x hx y hy
        have hyS : y = s := by
          have h0 := hy
          simp at h0
          exact h0.symm
        have hABlast : (A ++ B).getLast? = Option.some ((c.nodes c.head).prev) := by
          rw [List.getLast?_append, hBq, hTlast]
          rfl
        have hx2 : (A ++ B).getLast? = Option.some x := hx
        rw [hABlast] at hx2
        have hxT : x = (c.nodes c.head).prev := (Option.some.inj hx2).symm
        rw [hF x, hxT, if_pos rfl, hyS]
    have hhead : ((A ++ B) ++ [s]).head? = Option.some c.head := by
      obtain ⟨a, A', hA⟩ := List.exists_cons_of_ne_nil hAne
      have haH : a = c.head := by
        rw [hAB, hA] at hLhead
        simpa using hLhead
      rw [hA, haH]
      rfl
    have hlen : ((A ++ B) ++ [s]).length = c.size := by
      have h10 : (walkL c).length = c.size := by
        unfold walkL
        simp
      rw [hAB] at h10
      simp at h10 ⊢
      omega
    have hfinal := walkN_eq_of_chain (fun i => ((mtf c s).nodes i).next)
      ((A ++ B) ++ [s]) c.head hchain hhead
    rw [hlen] at hfinal
    rw [herase]
    unfold walkL
    rw [mtf_size, mtf_head]
    exact hfinal

end lrucache

namespace lrucache

/-- After `mtf` on a non-head slot, that slot's `next` is the head. -/
theorem mtf_next_eq_head (c : lrucache) (hwf : WFr c) {n : Nat}
    (hn : n < c.size) (hneq : n ≠ c.head) :
    ((mtf c n).nodes n).next = c.head := by
  by_cases hnx : (c.nodes n).next = c.head
  · rw [mtf_nodes_tail c hwf hn hneq hnx n]
    exact hnx
  · rw [mtf_nodes_mid c hwf hn hneq hnx n]
    have hnT : ¬ n = (c.nodes c.head).prev := by
      intro he
      apply hnx
      rw [he]
      exact (hwf.2 c.head hwf.1).2.2.2
    show (if n = (c.nodes c.head).prev then n
        else if n = n then c.head
        else if n = (c.nodes n).prev then (c.nodes n).next
        else (c.nodes n).next) = c.head
    rw [if_neg hnT, if_pos rfl]

/-- `mtf` preserves the single-cycle property. -/
theorem WFring_mtf (c : lrucache) (hwf : WFring c) {n : Nat} (hn : n < c.size) :
    WFring (mtf c n) := by
  refine ⟨WFr_mtf c hwf.1 hn, ?_⟩
  by_cases hneq : n = c.head
  · have hfun : (fun i => ((mtf c n).nodes i).next) = fun i => (c.nodes i).next :=
      funext fun i => by rw [hneq, mtf_nodes_self c hwf.1 i]
    unfold walkL
    rw [mtf_size, mtf_head, hfun]
    exact hwf.2
  · rw [mtf_walkL c hwf.1 hwf.2 hn hneq]
    rw [List.nodup_append]
    refine ⟨(List.erase_sublist _ _).nodup hwf.2, List.nodup_singleton _, ?_⟩
    intro x hx hxs
    rw [List.mem_singleton] at hxs
    subst hxs
    exact ((List.Nodup.mem_erase_iff hwf.2).mp hx).1 rfl

/-- Walk of the cache obtained by `mtf` followed by `head := n`
(the update-path/`__getitem__` reordering). -/
theorem walkL_mtf_set_head (c : lrucache) (hwf : WFring c) {n : Nat}
    (hn : n < c.size) (hneq : n ≠ c.head) :
    walkL { mtf c n with head := n } = n :: (walkL c).erase n := by
  have hfn := mtf_next_eq_head c hwf.1 hn hneq
  have hpos : 0 < c.size := Nat.lt_of_le_of_lt (Nat.zero_le _) hwf.1.1
  obtain ⟨m, hm⟩ : ∃ m, c.size = m + 1 := ⟨c.size - 1, by omega⟩
  have hsplice := mtf_walkL c hwf.1 hwf.2 hn hneq
  have hmem : n ∈ walkL c := walkL_cover c hwf.1 hwf.2 n hn
  have herlen : ((walkL c).erase n).length = m := by
    rw [List.length_erase_of_mem hmem]
    unfold walkL
    simp [hm]
  show walkN (fun i => ((mtf c n).nodes i).next) n c.size = _
  rw [hm, walkN_succ, hfn]
  congr 1
  rw [walkN_take _ _ m (m + 1) (by omega), ← hm]
  show List.take m (walkL (mtf c n)) = _
  rw [hsplice, ← herlen, List.take_left]

/-- Walk from the old head's successor (deletion of the head):
the old head moves to the back. -/
theorem walkL_rotate (c : lrucache) (hwf : WFr c) (hnd : (walkL c).Nodup) :
    walkN (fun i => (c.nodes i).next) ((c.nodes c.head).next) c.size =
      (walkL c).tail ++ [c.head] := by
  have hpos : 0 < c.size := Nat.lt_of_le_of_lt (Nat.zero_le _) hwf.1
  obtain ⟨m, hm⟩ : ∃ m, c.size = m + 1 := ⟨c.size - 1, by omega⟩
  have htail : (walkL c).tail =
      walkN (fun i => (c.nodes i).next) ((c.nodes c.head).next) m := by
    unfold walkL
    rw [hm, walkN_succ]
    rfl
  have hcl := walkN_closure (S := c.size) (f := fun i => (c.nodes i).next)
    (x := c.head) (fun i hi => (hwf.2 i hi).1) (next_inj c hwf) hwf.1 hnd hpos
  rw [hm, walkN_snoc, htail]
  congr 1
  congr 1
  rw [← Function.iterate_succ_apply, Function.iterate_succ_apply']
  rw [show m = c.size - 1 from by omega]
  exact hcl

/-- Walk from the head's predecessor without any relinking
(the insert path): the tail slot moves to the front. -/
theorem walkL_from_prev_head (c : lrucache) (hwf : WFr c) :
    walkN (fun i => (c.nodes i).next) ((c.nodes c.head).prev) c.size =
      (c.nodes c.head).prev :: (walkL c).dropLast := by
  have hpos : 0 < c.size := Nat.lt_of_le_of_lt (Nat.zero_le _) hwf.1
  obtain ⟨m, hm⟩ : ∃ m, c.size = m + 1 := ⟨c.size - 1, by omega⟩
  have hpn := (hwf.2 c.head hwf.1).2.2.2
  rw [hm, walkN_succ, hpn]
  congr 1
  have hdl : (walkL c).dropLast = (walkL c).take ((walkL c).length - 1) :=
    (List.dropLast_eq_take _)
  rw [hdl]
  have hlen : (walkL c).length = m + 1 := by
    unfold walkL
    simp [hm]
  rw [hlen]
  unfold walkL
  rw [hm]
  simp only [Nat.add_sub_cancel]
  exact walkN_take _ _ m (m + 1) (by omega)

end lrucache

namespace lrucache

@[simp] theorem addN1_head (c : lrucache) (i : Nat) : (addN1 c i).head = c.head := rfl
@[simp] theorem addN2_head (c : lrucache) (i : Nat) : (addN2 c i).head = c.head := rfl
@[simp] theorem addN3_head (c : lrucache) (i : Nat) : (addN3 c i).head = c.head := rfl
@[simp] theorem addN4_head (c : lrucache) (i : Nat) : (addN4 c i).head = c.head := rfl
@[simp] theorem addNode_head (c : lrucache) (i : Nat) : (addNode c i).head = c.head := rfl
@[simp] theorem addNode_size (c : lrucache) (i : Nat) : (addNode c i).size = c.size := rfl
@[simp] theorem addNode_table (c : lrucache) (i : Nat) : (addNode c i).table = c.table := rfl

theorem foldl_addNode_head (l : List Nat) (c : lrucache) :
    (l.foldl addNode c).head = c.head := by
  induction l generalizing c with
  | nil => rfl
  | cons a l ih => rw [List.foldl_cons, ih, addNode_head]

theorem foldl_addNode_size (l : List Nat) (c : lrucache) :
    (l.foldl addNode c).size = c.size := by
  induction l generalizing c with
  | nil => rfl
  | cons a l ih => rw [List.foldl_cons, ih, addNode_size]

theorem foldl_addNode_table (l : List Nat) (c : lrucache) :
    (l.foldl addNode c).table = c.table := by
  induction l generalizing c with
  | nil => rfl
  | cons a l ih => rw [List.foldl_cons, ih, addNode_table]

/-- Effect of one `__init__` loop iteration on the closed-form ring
`0 → k → k-1 → … → 1 → 0` (nodes above `k` still fresh): node `k+1` is
spliced directly after the head `0`. -/
theorem addNode_nodes (c : lrucache) (k : Nat) (hh : c.head = 0)
    (hc : ∀ j, c.nodes j =
      ⟨if j ≤ k then (if j = 0 then k else j - 1) else j,
       if j ≤ k then (if j = k then 0 else j + 1) else j,
       PyVal.none, PyVal.none⟩) :
    ∀ j, (addNode c (k + 1)).nodes j =
      ⟨if j ≤ k + 1 then (if j = 0 then k + 1 else j - 1) else j,
       if j ≤ k + 1 then (if j = k + 1 then 0 else j + 1) else j,
       PyVal.none, PyVal.none⟩ := by
  intro j
  set D1 := addN1 c (k + 1) with hD1
  set D2 := addN2 D1 (k + 1) with hD2
  set D3 := addN3 D2 (k + 1) with hD3
  set D4 := addN4 D3 (k + 1) with hD4
  have hM : addNode c (k + 1) = addN5 D4 (k + 1) := by
    rw [addNode, ← hD1, ← hD2, ← hD3, ← hD4]
  have L1 : ∀ i, D1.nodes i =
      if i = k + 1 then ⟨k + 1, k + 1, PyVal.none, PyVal.none⟩ else c.nodes i := by
    intro i
    rw [hD1, addN1]
    rfl
  have hD1h : D1.head = 0 := by rw [hD1, addN1_head, hh]
  have L2 : ∀ i, D2.nodes i =
      if i = k + 1 then ⟨k + 1, 0, PyVal.none, PyVal.none⟩ else c.nodes i := by
    intro i
    rw [hD2, addN2, hD1h, setPrev_nodes, L1 i]
    split_ifs with h0
    · rw [L1 (k + 1), if_pos rfl]
    · rfl
  have hD2h : D2.head = 0 := by rw [hD2, addN2_head, hD1h]
  have hr2 : (D2.nodes 0).next = k := by
    rw [L2 0, if_neg (by omega), hc 0]
    simp
  have L3 : ∀ i, D3.nodes i =
      if i = k + 1 then ⟨k, 0, PyVal.none, PyVal.none⟩ else c.nodes i := by
    intro i
    rw [hD3, addN3, hD2h, hr2, setNext_nodes, L2 i]
    split_ifs with h0
    · rw [L2 (k + 1), if_pos rfl]
    · rfl
  have hD3h : D3.head = 0 := by rw [hD3, addN3_head, hD2h]
  have hr3 : (D3.nodes 0).next = k := by
    rw [L3 0, if_neg (by omega), hc 0]
    simp
  have L4 : ∀ i, D4.nodes i =
      if i = k then { c.nodes k with prev := k + 1 }
      else if i = k + 1 then ⟨k, 0, PyVal.none, PyVal.none⟩
      else c.nodes i := by
    intro i
    rw [hD4, addN4, hD3h, hr3, setPrev_nodes, L3 i]
    by_cases h0 : i = k
    · rw [if_pos h0, if_pos h0, L3 k, if_neg (by omega : ¬ k = k + 1)]
    · rw [if_neg h0, if_neg h0]
  have hD4h : D4.head = 0 := by rw [hD4, addN4_head, hD3h]
  have hfin : (addN5 D4 (k + 1)).nodes j =
      if j = 0 then { D4.nodes 0 with next := k + 1 } else D4.nodes j := by
    rw [addN5, hD4h, setNext_nodes]
  have hD40 : D4.nodes 0 = ⟨k, 1, PyVal.none, PyVal.none⟩ := by
    rw [L4 0]
    by_cases hk0 : (0 : Nat) = k
    · rw [if_pos hk0, hc k]
      apply dlnode_ext
      · show (if k ≤ k then if k = 0 then k else k - 1 else k) = k
        split_ifs <;> first | omega | contradiction
      · show k + 1 = 1
        omega
      · rfl
      · rfl
    · rw [if_neg hk0, if_neg (by omega : ¬ (0 : Nat) = k + 1), hc 0]
      apply dlnode_ext
      · show (if 0 ≤ k then if 0 = 0 then k else 0 - 1 else 0) = k
        split_ifs <;> first | omega | contradiction
      · show (if 0 ≤ k then if 0 = k then 0 else 0 + 1 else 0) = 1
        split_ifs <;> first | omega | contradiction
      · rfl
      · rfl
  rw [hM, hfin]
  by_cases hj0 : j = 0
  · subst hj0
    rw [if_pos rfl, hD40]
    apply dlnode_ext
    · show k + 1 = if 0 ≤ k + 1 then if 0 = 0 then k + 1 else 0 - 1 else 0
      split_ifs <;> first | omega | contradiction
    · show 1 = if 0 ≤ k + 1 then if 0 = k + 1 then 0 else 0 + 1 else 0
      split_ifs <;> first | omega | contradiction
    · rfl
    · rfl
  · rw [if_neg hj0, L4 j]
    by_cases hjk : j = k
    · subst hjk
      rw [if_pos rfl, hc j]
      apply dlnode_ext
      · show (if j ≤ j then if j = 0 then j else j - 1 else j) =
          if j ≤ j + 1 then if j = 0 then j + 1 else j - 1 else j
        split_ifs <;> first | omega | contradiction
      · show j + 1 = if j ≤ j + 1 then if j = j + 1 then 0 else j + 1 else j
        split_ifs <;> first | omega | contradiction
      · rfl
      · rfl
    · rw [if_neg hjk]
      by_cases hjk1 : j = k + 1
      · subst hjk1
        rw [if_pos rfl]
        apply dlnode_ext
        · show k = if k + 1 ≤ k + 1 then if k + 1 = 0 then k + 1 else k + 1 - 1
            else k + 1
          split_ifs <;> first | omega | contradiction
        · show 0 = if k + 1 ≤ k + 1 then if k + 1 = k + 1 then 0 else k + 1 + 1
            else k + 1
          split_ifs <;> first | omega | contradiction
        · rfl
        · rfl
      · rw [if_neg hjk1, hc j]
        apply dlnode_ext
        · show (if j ≤ k then if j = 0 then k else j - 1 else j) =
            if j ≤ k + 1 then if j = 0 then k + 1 else j - 1 else j
          split_ifs <;> first | omega | contradiction
        · show (if j ≤ k then if j = k then 0 else j + 1 else j) =
            if j ≤ k + 1 then if j = k + 1 then 0 else j + 1 else j
          split_ifs <;> first | omega | contradiction
        · rfl
        · rfl

end lrucache

namespace lrucache

@[simp] theorem init_size (n : Nat) : (init n).size = n := by
  unfold init
  rw [foldl_addNode_size]

@[simp] theorem init_head (n : Nat) : (init n).head = 0 := by
  unfold init
  rw [foldl_addNode_head]

@[simp] theorem init_table (n : Nat) : (init n).table = [] := by
  unfold init
  rw [foldl_addNode_table]

/-- Closed form of the ring built by `__init__`: the ring is
`0 → n-1 → n-2 → … → 1 → 0`, all nodes empty. -/
theorem init_nodes (n : Nat) : ∀ j, (init n).nodes j =
    ⟨if j ≤ n - 1 then (if j = 0 then n - 1 else j - 1) else j,
     if j ≤ n - 1 then (if j = n - 1 then 0 else j + 1) else j,
     PyVal.none, PyVal.none⟩ := by
  have key : ∀ k j, (((List.range' 1 k).foldl addNode
      { size := n, head := 0,
        nodes := fun j => ⟨j, j, PyVal.none, PyVal.none⟩,
        table := [] } : lrucache)).nodes j =
      ⟨if j ≤ k then (if j = 0 then k else j - 1) else j,
       if j ≤ k then (if j = k then 0 else j + 1) else j,
       PyVal.none, PyVal.none⟩ := by
    intro k
    induction k with
    | zero =>
      intro j
      show (⟨j, j, PyVal.none, PyVal.none⟩ : dlnode) = _
      apply dlnode_ext
      · show j = if j ≤ 0 then if j = 0 then 0 else j - 1 else j
        split_ifs <;> first | omega | contradiction
      · show j = if j ≤ 0 then if j = 0 then 0 else j + 1 else j
        split_ifs <;> first | omega | contradiction
      · rfl
      · rfl
    | succ k ih =>
      intro j
      have hrange : List.range' 1 (k + 1) = List.range' 1 k ++ [1 + k] :=
        List.range'_1_concat 1 k
      rw [hrange, List.foldl_append, List.foldl_cons, List.foldl_nil]
      have hcomm : 1 + k = k + 1 := by omega
      rw [hcomm]
      refine addNode_nodes _ k ?_ ih j
      rw [foldl_addNode_head]
  intro j
  unfold init
  exact key (n - 1) j

end lrucache

namespace lrucache

/-- The initial walk: head `0`, then `n-1, n-2, …, 1`. -/
theorem walkL_init (n : Nat) (hn : 0 < n) :
    walkL (init n) = 0 :: (List.range' 1 (n - 1)).reverse := by
  have hdesc : ∀ k, k ≤ n - 1 →
      walkN (fun i => ((init n).nodes i).next) k k =
        (List.range' 1 k).reverse := by
    intro k
    induction k with
    | zero => intro _; simp
    | succ k ih =>
      intro hk
      rw [walkN_succ]
      have hstep : ((init n).nodes (k + 1)).next = k := by
        rw [init_nodes n (k + 1)]
        show (if k + 1 ≤ n - 1 then if k + 1 = 0 then n - 1 else k + 1 - 1
          else k + 1) = k
        split_ifs <;> first | omega | contradiction
      rw [hstep, ih (by omega), List.range'_1_concat, List.reverse_append]
      simp [Nat.add_comm]
  obtain ⟨m, hm⟩ : ∃ m, n = m + 1 := ⟨n - 1, by omega⟩
  subst hm
  unfold walkL
  rw [init_size, init_head, walkN_succ]
  have hzero : ((init (m + 1)).nodes 0).next = m := by
    rw [init_nodes _ 0]
    show (if 0 ≤ m + 1 - 1 then if 0 = 0 then m + 1 - 1 else 0 - 1 else 0) = m
    split_ifs <;> first | omega | contradiction
  rw [hzero]
  have hm1 : m + 1 - 1 = m := by omega
  rw [hm1, hdesc m (by omega)]

/-- The freshly constructed cache satisfies the full invariant. -/
theorem Inv_init (n : Nat) (hn : 0 < n) : Inv (init n) := by
  have hWFr : WFr (init n) := by
    constructor
    · rw [init_head, init_size]
      exact hn
    intro i hi
    rw [init_size] at hi
    simp only [init_nodes n, init_size]
    refine ⟨?_, ?_, ?_, ?_⟩ <;> split_ifs <;> first | omega | contradiction
  have hnodup : (walkL (init n)).Nodup := by
    rw [walkL_init n hn]
    rw [List.nodup_cons, List.nodup_reverse]
    constructor
    · intro hmem
      rw [List.mem_reverse, List.mem_range'] at hmem
      omega
    · exact List.nodup_range' 1 (n - 1)
  refine ⟨⟨hWFr, hnodup⟩, ?_, ?_, ?_, ?_, ?_⟩
  · rw [init_size]
    show (init n).table.length ≤ n
    rw [init_table]
    simp
  · rw [init_table]
    simp
  · intro i hi
    unfold occL len at hi
    rw [init_table] at hi
    simp at hi
  · intro p hp
    rw [init_table] at hp
    simp at hp
  · intro i _
    rw [init_nodes n i]
    exact ⟨rfl, rfl⟩

end lrucache

namespace lrucache

theorem Inv.wfr {c : lrucache} (h : Inv c) : WFr c := h.1.1
theorem Inv.nodup {c : lrucache} (h : Inv c) : (walkL c).Nodup := h.1.2
theorem Inv.ring {c : lrucache} (h : Inv c) : WFring c := h.1
theorem Inv.len_le {c : lrucache} (h : Inv c) : len c ≤ c.size := h.2.1
theorem Inv.keys_nodup {c : lrucache} (h : Inv c) :
    (c.table.map Prod.fst).Nodup := h.2.2.1
theorem Inv.occ {c : lrucache} (h : Inv c) :
    ∀ i ∈ occL c, (c.nodes i).key ≠ PyVal.none ∧
      lookupT c.table ((c.nodes i).key) = Option.some i := h.2.2.2.1
theorem Inv.tbl {c : lrucache} (h : Inv c) :
    ∀ p ∈ c.table, p.2 ∈ occL c ∧ (c.nodes p.2).key = p.1 := h.2.2.2.2.1
theorem Inv.emp {c : lrucache} (h : Inv c) :
    ∀ i ∈ empL c, (c.nodes i).key = PyVal.none ∧ (c.nodes i).obj = PyVal.none :=
  h.2.2.2.2.2

theorem walk_eq_occ_emp (c : lrucache) : walkL c = occL c ++ empL c :=
  (List.take_append_drop _ _).symm

theorem occL_subset_walk (c : lrucache) : ∀ i ∈ occL c, i ∈ walkL c :=
  fun _ h => List.take_subset _ _ h

theorem empL_subset_walk (c : lrucache) : ∀ i ∈ empL c, i ∈ walkL c :=
  fun _ h => List.drop_subset _ _ h

theorem occL_length (c : lrucache) (h : len c ≤ c.size) :
    (occL c).length = len c := by
  unfold occL
  rw [List.length_take]
  have : (walkL c).length = c.size := by unfold walkL; simp
  omega

theorem empL_length (c : lrucache) : (empL c).length = c.size - len c := by
  unfold empL
  rw [List.length_drop]
  have : (walkL c).length = c.size := by unfold walkL; simp
  omega

theorem occL_nodup {c : lrucache} (h : (walkL c).Nodup) : (occL c).Nodup :=
  (List.take_sublist _ _).nodup h

theorem occ_emp_disjoint {c : lrucache} (h : (walkL c).Nodup) :
    ∀ i ∈ occL c, i ∉ empL c := by
  intro i hocc hemp
  have := walk_eq_occ_emp c ▸ h
  rcases List.nodup_append.mp this with ⟨_, _, hdisj⟩
  exact hdisj hocc hemp

/-- A table hit resolves to an occupied slot whose `key` field is the looked
up key. -/
theorem Inv.lookup_occ {c : lrucache} (h : Inv c) {k : PyVal} {n : Nat}
    (hl : lookupT c.table k = Option.some n) :
    n ∈ occL c ∧ (c.nodes n).key = k :=
  h.tbl (k, n) (lookupT_mem hl)

theorem Inv.occ_key_inj {c : lrucache} (h : Inv c) {i j : Nat}
    (hi : i ∈ occL c) (hj : j ∈ occL c)
    (hk : (c.nodes i).key = (c.nodes j).key) : i = j := by
  have h1 := (h.occ i hi).2
  have h2 := (h.occ j hj).2
  rw [hk] at h1
  rw [h1] at h2
  exact Option.some.inj h2

theorem setKey_nodes (c : lrucache) (i : Nat) (k : PyVal) (j : Nat) :
    (setKey c i k).nodes j =
      if j = i then { c.nodes i with key := k } else c.nodes j := rfl

theorem setObj_nodes (c : lrucache) (i : Nat) (v : PyVal) (j : Nat) :
    (setObj c i v).nodes j =
      if j = i then { c.nodes i with obj := v } else c.nodes j := rfl

@[simp] theorem setKey_size (c : lrucache) (i : Nat) (k : PyVal) :
    (setKey c i k).size = c.size := rfl
@[simp] theorem setKey_head (c : lrucache) (i : Nat) (k : PyVal) :
    (setKey c i k).head = c.head := rfl
@[simp] theorem setKey_table (c : lrucache) (i : Nat) (k : PyVal) :
    (setKey c i k).table = c.table := rfl
@[simp] theorem setObj_size (c : lrucache) (i : Nat) (v : PyVal) :
    (setObj c i v).size = c.size := rfl
@[simp] theorem setObj_head (c : lrucache) (i : Nat) (v : PyVal) :
    (setObj c i v).head = c.head := rfl
@[simp] theorem setObj_table (c : lrucache) (i : Nat) (v : PyVal) :
    (setObj c i v).table = c.table := rfl

@[simp] theorem setKey_nodes_next (c : lrucache) (i : Nat) (k : PyVal) (j : Nat) :
    ((setKey c i k).nodes j).next = (c.nodes j).next := by
  rw [setKey_nodes]; split <;> simp_all
@[simp] theorem setKey_nodes_prev (c : lrucache) (i : Nat) (k : PyVal) (j : Nat) :
    ((setKey c i k).nodes j).prev = (c.nodes j).prev := by
  rw [setKey_nodes]; split <;> simp_all
@[simp] theorem setObj_nodes_next (c : lrucache) (i : Nat) (v : PyVal) (j : Nat) :
    ((setObj c i v).nodes j).next = (c.nodes j).next := by
  rw [setObj_nodes]; split <;> simp_all
@[simp] theorem setObj_nodes_prev (c : lrucache) (i : Nat) (v : PyVal) (j : Nat) :
    ((setObj c i v).nodes j).prev = (c.nodes j).prev := by
  rw [setObj_nodes]; split <;> simp_all
@[simp] theorem setObj_nodes_key (c : lrucache) (i : Nat) (v : PyVal) (j : Nat) :
    ((setObj c i v).nodes j).key = (c.nodes j).key := by
  rw [setObj_nodes]; split <;> simp_all

theorem setKey_nodes_key (c : lrucache) (i : Nat) (k : PyVal) (j : Nat) :
    ((setKey c i k).nodes j).key = if j = i then k else (c.nodes j).key := by
  rw [setKey_nodes]; split <;> simp_all

theorem setKey_nodes_obj (c : lrucache) (i : Nat) (k : PyVal) (j : Nat) :
    ((setKey c i k).nodes j).obj = (c.nodes j).obj := by
  rw [setKey_nodes]; split <;> simp_all

theorem setObj_nodes_obj (c : lrucache) (i : Nat) (v : PyVal) (j : Nat) :
    ((setObj c i v).nodes j).obj = if j = i then v else (c.nodes j).obj := by
  rw [setObj_nodes]; split <;> simp_all

theorem walkL_congr {c c' : lrucache}
    (hn : ∀ j, (c'.nodes j).next = (c.nodes j).next)
    (hh : c'.head = c.head) (hs : c'.size = c.size) : walkL c' = walkL c := by
  unfold walkL
  rw [hh, hs]
  have : (fun i => (c'.nodes i).next) = fun i => (c.nodes i).next :=
    funext fun i => hn i
  rw [this]

theorem WFr_congr2 {c c' : lrucache}
    (hn : ∀ j, (c'.nodes j).next = (c.nodes j).next)
    (hp : ∀ j, (c'.nodes j).prev = (c.nodes j).prev)
    (hh : c'.head = c.head) (hs : c'.size = c.size) (h : WFr c) : WFr c' := by
  unfold WFr at h ⊢
  simp only [hn, hp, hh, hs]
  exact h

end lrucache

namespace lrucache

/-- Promoting an occupied slot (`mtf` then `head := n`) preserves the
invariant and moves that slot to the front of the occupied prefix. -/
theorem Inv_promote (c : lrucache) (hI : Inv c) {n : Nat} (hocc : n ∈ occL c) :
    Inv { mtf c n with head := n } ∧
    occL { mtf c n with head := n } = n :: (occL c).erase n ∧
    empL { mtf c n with head := n } = empL c := by
  have hnw : n ∈ walkL c := occL_subset_walk c n hocc
  have hlt : n < c.size := walkL_elements c hI.wfr n hnw
  have hpos : 0 < c.size := Nat.lt_of_le_of_lt (Nat.zero_le _) hI.wfr.1
  have hlen_le := hI.len_le
  have hlenpos : 0 < len c := by
    have h1 := occL_length c hlen_le
    have h2 : occL c ≠ [] := fun h0 => by simp [h0] at hocc
    have h3 : 0 < (occL c).length := List.length_pos.mpr h2
    omega
  set c' : lrucache := { mtf c n with head := n } with hc'
  have hct : c'.table = c.table := rfl
  have hcs : c'.size = c.size := rfl
  have hlen : len c' = len c := by rw [len, hct]; rfl
  have hwalk : walkL c' = n :: (walkL c).erase n := by
    by_cases hnh : n = c.head
    · have hwc : walkL c' = walkL c := by
        refine walkL_congr ?_ ?_ ?_
        · intro j
          show ((mtf c n).nodes j).next = (c.nodes j).next
          rw [hnh, mtf_nodes_self c hI.wfr j]
        · show n = c.head
          exact hnh
        · rfl
      have hneL : walkL c ≠ [] := walkL_ne_nil c hpos
      have hLhead : (walkL c).head? = Option.some c.head := by
        unfold walkL
        exact walkN_head _ _ _ hpos
      obtain ⟨a, T, hT⟩ := List.exists_cons_of_ne_nil hneL
      have hah : a = c.head := by
        rw [hT] at hLhead
        simpa using hLhead
      rw [hwc, hT, hah, hnh, List.erase_cons_head]
    · exact walkL_mtf_set_head c hI.ring hlt hnh
  have herase : (walkL c).erase n = (occL c).erase n ++ empL c := by
    conv_lhs => rw [walk_eq_occ_emp c]
    exact List.erase_append_left _ hocc
  have holen : ((occL c).erase n).length = len c - 1 := by
    rw [List.length_erase_of_mem hocc, occL_length c hlen_le]
  have hoccL : occL c' = n :: (occL c).erase n := by
    show (walkL c').take (len c') = _
    rw [hwalk, hlen, herase]
    obtain ⟨m, hm⟩ : ∃ m, len c = m + 1 := ⟨len c - 1, by omega⟩
    rw [hm, List.take_succ_cons]
    congr 1
    have hol : ((occL c).erase n).length = m := by omega
    rw [← hol]
    exact List.take_left _ _
  have hempL : empL c' = empL c := by
    show (walkL c').drop (len c') = _
    rw [hwalk, hlen, herase]
    obtain ⟨m, hm⟩ : ∃ m, len c = m + 1 := ⟨len c - 1, by omega⟩
    rw [hm, List.drop_succ_cons]
    have hol : ((occL c).erase n).length = m := by omega
    rw [← hol]
    exact List.drop_left _ _
  have hkey : ∀ j, (c'.nodes j).key = (c.nodes j).key := fun j =>
    mtf_nodes_key c n j
  have hobj : ∀ j, (c'.nodes j).obj = (c.nodes j).obj := fun j =>
    mtf_nodes_obj c n j
  have hnodup' : (walkL c').Nodup := by
    rw [hwalk]
    rw [List.nodup_cons]
    refine ⟨?_, (List.erase_sublist _ _).nodup hI.nodup⟩
    intro hmem
    exact ((List.Nodup.mem_erase_iff hI.nodup).mp hmem).1 rfl
  refine ⟨⟨⟨⟨?_, ?_⟩, hnodup'⟩, ?_, ?_, ?_, ?_, ?_⟩, hoccL, hempL⟩
  · show n < c.size
    exact hlt
  · show ∀ i, i < c.size → _
    exact (WFr_mtf c hI.wfr hlt).2
  · rw [hlen, hcs]
    exact hlen_le
  · rw [hct]
    exact hI.keys_nodup
  · intro i hi
    rw [hoccL] at hi
    have hio : i ∈ occL c := by
      rcases List.mem_cons.mp hi with h | h
      · exact h ▸ hocc
      · exact (List.erase_sublist _ _).subset h
    rw [hkey i, hct]
    exact hI.occ i hio
  · intro p hp
    rw [hct] at hp
    obtain ⟨h1, h2⟩ := hI.tbl p hp
    refine ⟨?_, by rw [hkey]; exact h2⟩
    rw [hoccL]
    by_cases hpn : p.2 = n
    · rw [hpn]
      exact List.mem_cons_self _ _
    · exact List.mem_cons_of_mem _ ((List.mem_erase_of_ne hpn).mpr h1)
  · intro i hi
    rw [hempL] at hi
    rw [hkey i, hobj i]
    exact hI.emp i hi

end lrucache

namespace lrucache

/-- Abbreviation (for proofs) of the state built by the insert path of
`__setitem__` on a cache `c` whose table has already had the evicted key
deleted (or `c` itself when the reclaimed node was empty): store `k`/`v`
in the tail node `self.head.prev`, file it in the table under `k`, and make
it the head. -/
def insertState (c : lrucache) (k v : PyVal) : lrucache :=
  { setObj (setKey c ((c.nodes c.head).prev) k) ((c.nodes c.head).prev) v with
    table := insertT c.table k ((c.nodes c.head).prev),
    head := (c.nodes c.head).prev }

@[simp] theorem insertState_size (c : lrucache) (k v : PyVal) :
    (insertState c k v).size = c.size := rfl
@[simp] theorem insertState_head (c : lrucache) (k v : PyVal) :
    (insertState c k v).head = (c.nodes c.head).prev := rfl
@[simp] theorem insertState_table (c : lrucache) (k v : PyVal) :
    (insertState c k v).table = insertT c.table k ((c.nodes c.head).prev) := rfl

theorem insertState_nodes_next (c : lrucache) (k v : PyVal) (j : Nat) :
    ((insertState c k v).nodes j).next = (c.nodes j).next := by
  show ((setObj (setKey c _ k) _ v).nodes j).next = _
  rw [setObj_nodes_next, setKey_nodes_next]

theorem insertState_nodes_prev (c : lrucache) (k v : PyVal) (j : Nat) :
    ((insertState c k v).nodes j).prev = (c.nodes j).prev := by
  show ((setObj (setKey c _ k) _ v).nodes j).prev = _
  rw [setObj_nodes_prev, setKey_nodes_prev]

theorem insertState_nodes_key (c : lrucache) (k v : PyVal) (j : Nat) :
    ((insertState c k v).nodes j).key =
      if j = (c.nodes c.head).prev then k else (c.nodes j).key := by
  show ((setObj (setKey c _ k) _ v).nodes j).key = _
  rw [setObj_nodes_key, setKey_nodes_key]

theorem insertState_nodes_obj (c : lrucache) (k v : PyVal) (j : Nat) :
    ((insertState c k v).nodes j).obj =
      if j = (c.nodes c.head).prev then v else (c.nodes j).obj := by
  show ((setObj (setKey c _ k) _ v).nodes j).obj = _
  rw [setObj_nodes_obj, setKey_nodes_obj]

theorem insertState_walkL (c : lrucache) (hwf : WFr c) (k v : PyVal) :
    walkL (insertState c k v) =
      (c.nodes c.head).prev :: (walkL c).dropLast := by
  have h1 : walkL (insertState c k v) =
      walkN (fun i => (c.nodes i).next) ((c.nodes c.head).prev) c.size := by
    unfold walkL
    rw [insertState_size, insertState_head]
    have hfun : (fun i => ((insertState c k v).nodes i).next) =
        fun i => (c.nodes i).next := funext fun i => insertState_nodes_next c k v i
    rw [hfun]
  rw [h1]
  exact walkL_from_prev_head c hwf

/-- Reduction of `__setitem__` on a fresh key reclaiming an empty node. -/
theorem setitem_insert_eq_empty (c : lrucache) {k : PyVal} (v : PyVal)
    (habs : lookupT c.table k = Option.none)
    (hkey : (c.nodes ((c.nodes c.head).prev)).key = PyVal.none) :
    setitem c k v = Except.ok (insertState c k v) := by
  unfold setitem
  rw [habs]
  show (if (c.nodes ((c.nodes c.head).prev)).key = PyVal.none then _ else _) = _
  rw [if_pos hkey]
  have hkk : ((setObj (setKey c ((c.nodes c.head).prev) k)
      ((c.nodes c.head).prev) v).nodes ((c.nodes c.head).prev)).key = k := by
    rw [setObj_nodes_key, setKey_nodes_key, if_pos rfl]
  show Except.ok { setObj (setKey c ((c.nodes c.head).prev) k)
      ((c.nodes c.head).prev) v with
      table := insertT c.table ((setObj (setKey c ((c.nodes c.head).prev) k)
        ((c.nodes c.head).prev) v).nodes ((c.nodes c.head).prev)).key
        ((c.nodes c.head).prev),
      head := (c.nodes c.head).prev } = _
  rw [hkk]
  rfl

/-- Reduction of `__setitem__` on a fresh key that must first evict the
key of the reclaimed (occupied) tail node. -/
theorem setitem_insert_eq_evict (c : lrucache) {k : PyVal} (v : PyVal)
    (habs : lookupT c.table k = Option.none)
    (hkey : (c.nodes ((c.nodes c.head).prev)).key ≠ PyVal.none)
    {m : Nat}
    (hm : lookupT c.table ((c.nodes ((c.nodes c.head).prev)).key) = Option.some m) :
    setitem c k v = Except.ok
      (insertState
        { size := c.size, head := c.head, nodes := c.nodes,
          table := eraseT c.table ((c.nodes ((c.nodes c.head).prev)).key) }
        k v) := by
  unfold setitem
  rw [habs]
  show (if (c.nodes ((c.nodes c.head).prev)).key = PyVal.none then _ else _) = _
  rw [if_neg hkey, hm]
  set c0 : lrucache :=
    { size := c.size, head := c.head, nodes := c.nodes,
      table := eraseT c.table ((c.nodes ((c.nodes c.head).prev)).key) } with hc0
  have hkk : ((setObj (setKey c0 ((c.nodes c.head).prev) k)
      ((c.nodes c.head).prev) v).nodes ((c.nodes c.head).prev)).key = k := by
    rw [setObj_nodes_key, setKey_nodes_key, if_pos rfl]
  show Except.ok { setObj (setKey c0 ((c.nodes c.head).prev) k)
      ((c.nodes c.head).prev) v with
      table := insertT c0.table ((setObj (setKey c0 ((c.nodes c.head).prev) k)
        ((c.nodes c.head).prev) v).nodes ((c.nodes c.head).prev)).key
        ((c.nodes c.head).prev),
      head := (c.nodes c.head).prev } = _
  rw [hkk]
  rfl

/-- Reduction of `__setitem__` on a fresh key whose reclaimed node holds a
stale key that is no longer in the table: the `del` raises `KeyError`. -/
theorem setitem_insert_eq_error (c : lrucache) {k : PyVal} (v : PyVal)
    (habs : lookupT c.table k = Option.none)
    (hkey : (c.nodes ((c.nodes c.head).prev)).key ≠ PyVal.none)
    (hnm : lookupT c.table ((c.nodes ((c.nodes c.head).prev)).key) = Option.none) :
    setitem c k v = Except.error () := by
  unfold setitem
  rw [habs]
  show (if (c.nodes ((c.nodes c.head).prev)).key = PyVal.none then _ else _) = _
  rw [if_neg hkey, hnm]

/-- Reduction of `__setitem__` on a present key (the update path). -/
theorem setitem_update_eq (c : lrucache) {k : PyVal} (v : PyVal) {n : Nat}
    (hl : lookupT c.table k = Option.some n) :
    setitem c k v = Except.ok { mtf (setObj c n v) n with head := n } := by
  unfold setitem
  rw [hl]

/-- Reduction of `__getitem__` on a present key. -/
theorem getitem_eq (c : lrucache) {k : PyVal} {n : Nat}
    (hl : lookupT c.table k = Option.some n) :
    getitem c k = Except.ok ({ mtf c n with head := n }, (c.nodes n).obj) := by
  unfold getitem
  rw [hl]
  show Except.ok ({ mtf c n with head := n }, ((mtf c n).nodes n).obj) = _
  rw [mtf_nodes_obj c n n]

/-- Reduction of `__getitem__` on an absent key: `KeyError`. -/
theorem getitem_eq_error (c : lrucache) {k : PyVal}
    (hl : lookupT c.table k = Option.none) : getitem c k = Except.error () := by
  unfold getitem
  rw [hl]

/-- Reduction of `__delitem__` on an absent key: `KeyError`. -/
theorem delitem_eq_error (c : lrucache) {k : PyVal}
    (hl : lookupT c.table k = Option.none) : delitem c k = Except.error () := by
  unfold delitem
  rw [hl]

/-- Reduction of `__delitem__` on a present key. -/
theorem delitem_eq (c : lrucache) {k : PyVal} {n : Nat}
    (hl : lookupT c.table k = Option.some n) :
    delitem c k = Except.ok
      (let c3 := setObj (setKey { c with table := eraseT c.table k } n PyVal.none)
        n PyVal.none
       let c4 := mtf c3 n
       { c4 with head := (c4.nodes n).next }) := by
  unfold delitem
  rw [hl]

end lrucache

namespace lrucache

/-- Insert path reclaiming an empty node: the invariant is preserved, the
node joins the front of the occupied prefix, and the length grows by one. -/
theorem Inv_insert_empty (c : lrucache) (hI : Inv c) {k : PyVal} (v : PyVal)
    (hk : k ≠ PyVal.none) (habs : lookupT c.table k = Option.none)
    (hkey : (c.nodes ((c.nodes c.head).prev)).key = PyVal.none) :
    Inv (insertState c k v) ∧
    occL (insertState c k v) = (c.nodes c.head).prev :: occL c ∧
    len (insertState c k v) = len c + 1 := by
  have hpos : 0 < c.size := Nat.lt_of_le_of_lt (Nat.zero_le _) hI.wfr.1
  have hne : walkL c ≠ [] := walkL_ne_nil c hpos
  have hth : (c.nodes c.head).prev < c.size := (hI.wfr.2 c.head hI.wfr.1).2.1
  have htocc : (c.nodes c.head).prev ∉ occL c := fun h => (hI.occ _ h).1 hkey
  have htw : (c.nodes c.head).prev ∈ walkL c :=
    walkL_cover c hI.wfr hI.nodup _ hth
  have htemp : (c.nodes c.head).prev ∈ empL c := by
    rw [walk_eq_occ_emp c] at htw
    rcases List.mem_append.mp htw with h | h
    · exact absurd h htocc
    · exact h
  have hempne : empL c ≠ [] := fun h0 => by
    rw [h0] at htemp
    simp at htemp
  have hlen_lt : len c < c.size := by
    have h1 := empL_length c
    have h2 : 0 < (empL c).length := List.length_pos.mpr hempne
    omega
  have hins : (insertState c k v).table = c.table ++ [(k, (c.nodes c.head).prev)] := by
    rw [insertState_table, insertT_of_absent _ habs]
  have hlen' : len (insertState c k v) = len c + 1 := by
    rw [len, hins]
    simp [len]
  have hwalk' : walkL (insertState c k v) =
      (c.nodes c.head).prev :: (walkL c).dropLast :=
    insertState_walkL c hI.wfr k v
  have hlast : (walkL c).getLast hne = (c.nodes c.head).prev :=
    walkL_getLast_eq_prev_head c hI.wfr hI.nodup hne
  have htdl : (c.nodes c.head).prev ∉ (walkL c).dropLast :=
    hlast ▸ getLast_not_mem_dropLast _ hI.nodup hne
  have hnodup' : (walkL (insertState c k v)).Nodup := by
    rw [hwalk', List.nodup_cons]
    exact ⟨htdl, (List.dropLast_sublist _).nodup hI.nodup⟩
  have hLlen : (walkL c).length = c.size := by
    unfold walkL
    simp
  have hoccL : occL (insertState c k v) = (c.nodes c.head).prev :: occL c := by
    show (walkL (insertState c k v)).take (len (insertState c k v)) = _
    rw [hwalk', hlen', List.take_succ_cons]
    congr 1
    rw [List.dropLast_eq_take, hLlen, List.take_take]
    congr 1
    omega
  have hempL : empL (insertState c k v) = (empL c).dropLast := by
    show (walkL (insertState c k v)).drop (len (insertState c k v)) = _
    rw [hwalk', hlen', List.drop_succ_cons]
    rw [List.dropLast_eq_take, hLlen, List.drop_take]
    have he1 : (empL c).dropLast = (empL c).take ((empL c).length - 1) :=
      List.dropLast_eq_take _
    rw [he1, empL_length]
    show ((walkL c).drop (len c)).take (c.size - 1 - len c) =
      ((walkL c).drop (len c)).take (c.size - len c - 1)
    congr 1
    omega
  have hempnodup : (empL c).Nodup := (List.drop_sublist _ _).nodup hI.nodup
  have hlastEmp : (empL c).getLast hempne = (c.nodes c.head).prev := by
    have h1 : (walkL c).getLast? = (empL c).getLast? := by
      rw [walk_eq_occ_emp c, List.getLast?_append,
        List.getLast?_eq_getLast _ hempne]
      rfl
    rw [List.getLast?_eq_getLast _ hne, List.getLast?_eq_getLast _ hempne] at h1
    rw [← Option.some.inj h1, hlast]
  have hkeys : ∀ j, ((insertState c k v).nodes j).key =
      if j = (c.nodes c.head).prev then k else (c.nodes j).key :=
    insertState_nodes_key c k v
  have hobjs : ∀ j, ((insertState c k v).nodes j).obj =
      if j = (c.nodes c.head).prev then v else (c.nodes j).obj :=
    insertState_nodes_obj c k v
  refine ⟨⟨⟨⟨?_, ?_⟩, hnodup'⟩, ?_, ?_, ?_, ?_, ?_⟩, hoccL, hlen'⟩
  · show (c.nodes c.head).prev < c.size
    exact hth
  · intro i hi
    simp only [insertState_size] at hi
    simp only [insertState_nodes_next, insertState_nodes_prev, insertState_size]
    exact hI.wfr.2 i hi
  · rw [hlen']
    show len c + 1 ≤ c.size
    omega
  · rw [hins, List.map_append, List.nodup_append]
    refine ⟨hI.keys_nodup, by simp, ?_⟩
    intro x hx hx2
    simp at hx2
    rw [hx2] at hx
    exact (lookupT_eq_none_iff _ _).mp habs hx
  · intro i hi
    rw [hoccL] at hi
    rcases List.mem_cons.mp hi with h | h
    · rw [hkeys i, if_pos h, hins, h]
      refine ⟨hk, ?_⟩
      rw [lookupT_append_right habs]
      simp [lookupT]
    · have hne_t : i ≠ (c.nodes c.head).prev := fun he => htocc (he ▸ h)
      rw [hkeys i, if_neg hne_t, hins]
      obtain ⟨h1, h2⟩ := hI.occ i h
      exact ⟨h1, lookupT_append_left h2⟩
  · intro p hp
    rw [hins] at hp
    rcases List.mem_append.mp hp with h | h
    · obtain ⟨h1, h2⟩ := hI.tbl p h
      have hne_t : p.2 ≠ (c.nodes c.head).prev := fun he => htocc (he ▸ h1)
      rw [hoccL, hkeys p.2, if_neg hne_t]
      exact ⟨List.mem_cons_of_mem _ h1, h2⟩
    · rw [List.mem_singleton] at h
      subst h
      refine ⟨?_, ?_⟩
      · rw [hoccL]
        exact List.mem_cons_self _ _
      · show ((insertState c k v).nodes ((c.nodes c.head).prev)).key = k
        rw [hkeys, if_pos rfl]
  · intro i hi
    rw [hempL] at hi
    have hie : i ∈ empL c := List.dropLast_subset _ hi
    have hne_t : i ≠ (c.nodes c.head).prev := by
      intro he
      rw [← hlastEmp] at he
      exact getLast_not_mem_dropLast _ hempnodup hempne (he ▸ hi)
    rw [hkeys i, if_neg hne_t, hobjs i, if_neg hne_t]
    exact hI.emp i hie

end lrucache

namespace lrucache

/-- On a cache with no empty tail node (a full cache), the insert path
evicts exactly the key of `head.prev` and preserves the invariant. -/
theorem Inv_insert_evict (c : lrucache) (hI : Inv c) {k : PyVal} (v : PyVal)
    (hk : k ≠ PyVal.none) (habs : lookupT c.table k = Option.none)
    (hkeyne : (c.nodes ((c.nodes c.head).prev)).key ≠ PyVal.none) :
    Inv (insertState
      { size := c.size, head := c.head, nodes := c.nodes,
        table := eraseT c.table ((c.nodes ((c.nodes c.head).prev)).key) } k v) ∧
    (insertState
      { size := c.size, head := c.head, nodes := c.nodes,
        table := eraseT c.table ((c.nodes ((c.nodes c.head).prev)).key) } k v).table =
      eraseT c.table ((c.nodes ((c.nodes c.head).prev)).key) ++
        [(k, (c.nodes c.head).prev)] ∧
    len (insertState
      { size := c.size, head := c.head, nodes := c.nodes,
        table := eraseT c.table ((c.nodes ((c.nodes c.head).prev)).key) } k v) =
      len c ∧
    lookupT c.table ((c.nodes ((c.nodes c.head).prev)).key) =
      Option.some ((c.nodes c.head).prev) := by
  have hpos : 0 < c.size := Nat.lt_of_le_of_lt (Nat.zero_le _) hI.wfr.1
  have hne : walkL c ≠ [] := walkL_ne_nil c hpos
  have hth : (c.nodes c.head).prev < c.size := (hI.wfr.2 c.head hI.wfr.1).2.1
  have htw : (c.nodes c.head).prev ∈ walkL c :=
    walkL_cover c hI.wfr hI.nodup _ hth
  have htemp : (c.nodes c.head).prev ∉ empL c := fun h => hkeyne (hI.emp _ h).1
  have htocc : (c.nodes c.head).prev ∈ occL c := by
    rw [walk_eq_occ_emp c] at htw
    rcases List.mem_append.mp htw with h | h
    · exact h
    · exact absurd h htemp
  have hlast : (walkL c).getLast hne = (c.nodes c.head).prev :=
    walkL_getLast_eq_prev_head c hI.wfr hI.nodup hne
  have hempnil : empL c = [] := by
    by_contra hempne
    have h1 : (walkL c).getLast? = (empL c).getLast? := by
      rw [walk_eq_occ_emp c, List.getLast?_append,
        List.getLast?_eq_getLast _ hempne]
      rfl
    rw [List.getLast?_eq_getLast _ hne, List.getLast?_eq_getLast _ hempne] at h1
    have h2 : (c.nodes c.head).prev ∈ empL c := by
      rw [← hlast, Option.some.inj h1]
      exact List.getLast_mem hempne
    exact htemp h2
  have hLlen : (walkL c).length = c.size := by
    unfold walkL
    simp
  have hfull : len c = c.size := by
    have h1 := empL_length c
    rw [hempnil] at h1
    simp at h1
    have := hI.len_le
    omega
  have hoccall : occL c = walkL c := by
    show (walkL c).take (len c) = _
    rw [hfull, ← hLlen]
    exact List.take_length _
  have hlookup_e : lookupT c.table ((c.nodes ((c.nodes c.head).prev)).key) =
      Option.some ((c.nodes c.head).prev) := (hI.occ _ htocc).2
  have hke : k ≠ (c.nodes ((c.nodes c.head).prev)).key := by
    intro he
    rw [← he] at hlookup_e
    rw [habs] at hlookup_e
    exact Option.noConfusion hlookup_e
  have habs0 : lookupT (eraseT c.table ((c.nodes ((c.nodes c.head).prev)).key)) k
      = Option.none := by
    rw [lookupT_eraseT_other _ hke]
    exact habs
  set c0 : lrucache :=
    { size := c.size, head := c.head, nodes := c.nodes,
      table := eraseT c.table ((c.nodes ((c.nodes c.head).prev)).key) } with hc0
  have hwfr0 : WFr c0 := hI.wfr
  have hwalk0 : walkL c0 = walkL c := rfl
  have he_mem : (c.nodes ((c.nodes c.head).prev)).key ∈ c.table.map Prod.fst := by
    rcases lookupT_mem hlookup_e with h
    exact List.mem_map.mpr ⟨_, h, rfl⟩
  have hins : (insertState c0 k v).table =
      eraseT c.table ((c.nodes ((c.nodes c.head).prev)).key) ++
        [(k, (c.nodes c.head).prev)] := by
    rw [insertState_table, insertT_of_absent _ habs0]
  have hlen' : len (insertState c0 k v) = len c := by
    rw [len, hins, List.length_append]
    have := eraseT_length_of_mem he_mem
    show (eraseT c.table _).length + 1 = c.table.length
    omega
  have hwalk' : walkL (insertState c0 k v) =
      (c.nodes c.head).prev :: (walkL c).dropLast :=
    insertState_walkL c0 hwfr0 k v
  have htdl : (c.nodes c.head).prev ∉ (walkL c).dropLast :=
    hlast ▸ getLast_not_mem_dropLast _ hI.nodup hne
  have hnodup' : (walkL (insertState c0 k v)).Nodup := by
    rw [hwalk', List.nodup_cons]
    exact ⟨htdl, (List.dropLast_sublist _).nodup hI.nodup⟩
  have hwalklen' : (walkL (insertState c0 k v)).length = c.size := by
    rw [hwalk']
    rw [List.length_cons, List.length_dropLast, hLlen]
    omega
  have hoccL : occL (insertState c0 k v) =
      (c.nodes c.head).prev :: (walkL c).dropLast := by
    show (walkL (insertState c0 k v)).take (len (insertState c0 k v)) = _
    rw [hlen', hfull, ← hwalklen', List.take_length, hwalk']
  have hempL : empL (insertState c0 k v) = [] := by
    show (walkL (insertState c0 k v)).drop (len (insertState c0 k v)) = _
    rw [hlen', hfull, ← hwalklen', List.drop_length]
  have hkeys : ∀ j, ((insertState c0 k v).nodes j).key =
      if j = (c.nodes c.head).prev then k else (c.nodes j).key :=
    insertState_nodes_key c0 k v
  have hdl_sub : ∀ i ∈ (walkL c).dropLast, i ∈ occL c := by
    intro i hi
    rw [hoccall]
    exact List.dropLast_subset _ hi
  refine ⟨⟨⟨⟨?_, ?_⟩, hnodup'⟩, ?_, ?_, ?_, ?_, ?_⟩, hins, hlen', hlookup_e⟩
  · show (c.nodes c.head).prev < c.size
    exact hth
  · intro i hi
    simp only [insertState_size] at hi
    simp only [insertState_nodes_next, insertState_nodes_prev, insertState_size]
    exact hwfr0.2 i hi
  · rw [hlen', hfull]
    show c.size ≤ c.size
    omega
  · rw [hins, List.map_append, List.nodup_append]
    refine ⟨eraseT_keys_nodup hI.keys_nodup, by simp, ?_⟩
    intro x hx hx2
    simp at hx2
    rw [hx2] at hx
    exact (lookupT_eq_none_iff _ _).mp habs0 hx
  · intro i hi
    rw [hoccL] at hi
    rcases List.mem_cons.mp hi with h | h
    · rw [hkeys i, if_pos h, hins, h]
      refine ⟨hk, ?_⟩
      rw [lookupT_append_right habs0]
      simp [lookupT]
    · have hne_t : i ≠ (c.nodes c.head).prev := fun he => htdl (he ▸ h)
      have hio : i ∈ occL c := hdl_sub i h
      rw [hkeys i, if_neg hne_t, hins]
      obtain ⟨h1, h2⟩ := hI.occ i hio
      have hkie : (c.nodes i).key ≠ (c.nodes ((c.nodes c.head).prev)).key := by
        intro he
        exact hne_t (hI.occ_key_inj hio htocc he)
      refine ⟨h1, ?_⟩
      apply lookupT_append_left
      rw [lookupT_eraseT_other _ hkie]
      exact h2
  · intro p hp
    rw [hins] at hp
    rcases List.mem_append.mp hp with h | h
    · have hpt : p ∈ c.table := eraseT_subset h
      obtain ⟨h1, h2⟩ := hI.tbl p hpt
      have hpe : p.1 ≠ (c.nodes ((c.nodes c.head).prev)).key := by
        intro he
        have h3 : lookupT (eraseT c.table ((c.nodes ((c.nodes c.head).prev)).key))
            ((c.nodes ((c.nodes c.head).prev)).key) = Option.none :=
          lookupT_eraseT_self hI.keys_nodup
        have h4 := (lookupT_eq_none_iff _ _).mp h3
        exact h4 (List.mem_map.mpr ⟨p, h, he ▸ rfl⟩)
      have hne_t : p.2 ≠ (c.nodes c.head).prev := by
        intro he
        apply hpe
        rw [← h2, he]
      refine ⟨?_, by rw [hkeys p.2, if_neg hne_t]; exact h2⟩
      rw [hoccL]
      have hpw : p.2 ∈ walkL c := hoccall ▸ h1
      have hdec : walkL c = (walkL c).dropLast ++ [(c.nodes c.head).prev] := by
        rw [← hlast]
        exact (List.dropLast_append_getLast hne).symm
      rw [hdec] at hpw
      rcases List.mem_append.mp hpw with h5 | h5
      · exact List.mem_cons_of_mem _ h5
      · rw [List.mem_singleton] at h5
        exact absurd h5 hne_t
    · rw [List.mem_singleton] at h
      subst h
      refine ⟨?_, ?_⟩
      · rw [hoccL]
        exact List.mem_cons_self _ _
      · show ((insertState c0 k v).nodes ((c.nodes c.head).prev)).key = k
        rw [hkeys, if_pos rfl]
  · intro i hi
    rw [hempL] at hi
    simp at hi

end lrucache

namespace lrucache

/-- Abbreviation (for proofs) of the state built by `__delitem__` on a hit:
erase the key from the table, blank the node, splice it to the tail with
`mtf`, and advance `head` past it. -/
def delState (c : lrucache) (k : PyVal) (n : Nat) : lrucache :=
  let c3 := setObj (setKey { c with table := eraseT c.table k } n PyVal.none)
    n PyVal.none
  let c4 := mtf c3 n
  { c4 with head := (c4.nodes n).next }

theorem delitem_eq_state (c : lrucache) {k : PyVal} {n : Nat}
    (hl : lookupT c.table k = Option.some n) :
    delitem c k = Except.ok (delState c k n) := delitem_eq c hl

@[simp] theorem delState_size (c : lrucache) (k : PyVal) (n : Nat) :
    (delState c k n).size = c.size := rfl
@[simp] theorem delState_table (c : lrucache) (k : PyVal) (n : Nat) :
    (delState c k n).table = eraseT c.table k := rfl

set_option maxHeartbeats 1600000 in
/-- Deleting a present key preserves the invariant: its slot leaves the
occupied prefix and is appended to the empty tail. -/
theorem Inv_delitem (c : lrucache) (hI : Inv c) {k : PyVal} {n : Nat}
    (hl : lookupT c.table k = Option.some n) :
    Inv (delState c k n) ∧ occL (delState c k n) = (occL c).erase n ∧
    empL (delState c k n) = empL c ++ [n] ∧ len (delState c k n) = len c - 1 := by
  obtain ⟨hocc, hkeyn⟩ := hI.lookup_occ hl
  have hnw : n ∈ walkL c := occL_subset_walk c n hocc
  have hn_lt : n < c.size := walkL_elements c hI.wfr n hnw
  have hpos : 0 < c.size := Nat.lt_of_le_of_lt (Nat.zero_le _) hI.wfr.1
  set c3 : lrucache :=
    setObj (setKey { c with table := eraseT c.table k } n PyVal.none)
      n PyVal.none with hc3
  have hc3n : ∀ j, (c3.nodes j).next = (c.nodes j).next := by
    intro j
    rw [hc3, setObj_nodes_next, setKey_nodes_next]
  have hc3p : ∀ j, (c3.nodes j).prev = (c.nodes j).prev := by
    intro j
    rw [hc3, setObj_nodes_prev, setKey_nodes_prev]
  have hc3h : c3.head = c.head := rfl
  have hc3s : c3.size = c.size := rfl
  have hwfr3 : WFr c3 := WFr_congr2 hc3n hc3p hc3h hc3s hI.wfr
  have hwalk3 : walkL c3 = walkL c := walkL_congr hc3n hc3h hc3s
  have hnd3 : (walkL c3).Nodup := hwalk3 ▸ hI.nodup
  have hc3key : ∀ j, (c3.nodes j).key =
      if j = n then PyVal.none else (c.nodes j).key := by
    intro j
    rw [hc3, setObj_nodes_key, setKey_nodes_key]
  have hc3obj : ∀ j, (c3.nodes j).obj =
      if j = n then PyVal.none else (c.nodes j).obj := by
    intro j
    rw [hc3, setObj_nodes_obj, setKey_nodes_obj]
  have hdn : ∀ j, ((delState c k n).nodes j) = ((mtf c3 n).nodes j) := fun _ => rfl
  have hkeyd : ∀ j, ((delState c k n).nodes j).key =
      if j = n then PyVal.none else (c.nodes j).key := by
    intro j
    rw [hdn j, mtf_nodes_key c3 n j, hc3key j]
  have hobjd : ∀ j, ((delState c k n).nodes j).obj =
      if j = n then PyVal.none else (c.nodes j).obj := by
    intro j
    rw [hdn j, mtf_nodes_obj c3 n j, hc3obj j]
  have hwfm := WFr_mtf c3 hwfr3 hn_lt
  have hwalkd : walkL (delState c k n) = (walkL c).erase n ++ [n] := by
    by_cases hnh : n = c.head
    · have hself : ∀ j, (mtf c3 n).nodes j = c3.nodes j := by
        intro j
        have h0 : n = c3.head := hnh
        rw [h0]
        exact mtf_nodes_self c3 hwfr3 j
      have hdh : (delState c k n).head = (c3.nodes c3.head).next := by
        show ((mtf c3 n).nodes n).next = _
        rw [hself n, hnh, hc3h]
      have h1 : walkL (delState c k n) =
          walkN (fun i => (c3.nodes i).next) ((c3.nodes c3.head).next) c3.size := by
        unfold walkL
        rw [hdh]
        have hfun : (fun i => ((delState c k n).nodes i).next) =
            fun i => (c3.nodes i).next := by
          funext i
          rw [hdn i, hself i]
        rw [hfun]
        rfl
      rw [h1, walkL_rotate c3 hwfr3 hnd3, hwalk3]
      have hneL : walkL c ≠ [] := walkL_ne_nil c hpos
      have hLhead : (walkL c).head? = Option.some c.head := by
        unfold walkL
        exact walkN_head _ _ _ hpos
      obtain ⟨a, T, hT⟩ := List.exists_cons_of_ne_nil hneL
      have hah : a = c.head := by
        rw [hT] at hLhead
        simpa using hLhead
      rw [hT, hah, hnh]
      show T ++ [c.head] = (c.head :: T).erase c.head ++ [c.head]
      rw [List.erase_cons_head]
    · have hnh3 : n ≠ c3.head := hnh
      have hfn := mtf_next_eq_head c3 hwfr3 hn_lt hnh3
      have h1 : walkL (delState c k n) = walkL (mtf c3 n) := by
        refine walkL_congr ?_ ?_ ?_
        · intro j
          rw [hdn j]
        · show ((mtf c3 n).nodes n).next = (mtf c3 n).head
          rw [hfn]
          rfl
        · rfl
      rw [h1, mtf_walkL c3 hwfr3 hnd3 hn_lt hnh3, hwalk3]
  have hkmem : k ∈ c.table.map Prod.fst := by
    rcases lookupT_mem hl with h
    exact List.mem_map.mpr ⟨_, h, rfl⟩
  have hlend : len (delState c k n) = len c - 1 := by
    show (eraseT c.table k).length = c.table.length - 1
    have := eraseT_length_of_mem hkmem
    omega
  have hlenpos : 0 < len c := by
    have h1 := occL_length c hI.len_le
    have h2 : occL c ≠ [] := fun h0 => by simp [h0] at hocc
    have h3 : 0 < (occL c).length := List.length_pos.mpr h2
    omega
  have herase : (walkL c).erase n = (occL c).erase n ++ empL c := by
    conv_lhs => rw [walk_eq_occ_emp c]
    exact List.erase_append_left _ hocc
  have holen : ((occL c).erase n).length = len c - 1 := by
    rw [List.length_erase_of_mem hocc, occL_length c hI.len_le]
  have hoccd : occL (delState c k n) = (occL c).erase n := by
    show (walkL (delState c k n)).take (len (delState c k n)) = _
    rw [hwalkd, hlend, herase, List.append_assoc, ← holen]
    exact List.take_left _ _
  have hempd : empL (delState c k n) = empL c ++ [n] := by
    show (walkL (delState c k n)).drop (len (delState c k n)) = _
    rw [hwalkd, hlend, herase, List.append_assoc, ← holen]
    exact List.drop_left _ _
  have hnodupd : (walkL (delState c k n)).Nodup := by
    rw [hwalkd, List.nodup_append]
    refine ⟨(List.erase_sublist _ _).nodup hI.nodup, List.nodup_singleton _, ?_⟩
    intro x hx hxs
    rw [List.mem_singleton] at hxs
    subst hxs
    exact ((List.Nodup.mem_erase_iff hI.nodup).mp hx).1 rfl
  refine ⟨⟨⟨⟨?_, ?_⟩, hnodupd⟩, ?_, ?_, ?_, ?_, ?_⟩, hoccd, hempd, hlend⟩
  · show ((mtf c3 n).nodes n).next < c.size
    exact (hwfm.2 n (by exact hn_lt)).1
  · intro i hi
    exact hwfm.2 i hi
  · rw [hlend]
    show len c - 1 ≤ c.size
    have := hI.len_le
    omega
  · show (List.map Prod.fst (eraseT c.table k)).Nodup
    exact eraseT_keys_nodup hI.keys_nodup
  · intro i hi
    rw [hoccd] at hi
    obtain ⟨hine, hio⟩ := (List.Nodup.mem_erase_iff (occL_nodup hI.nodup)).mp hi
    rw [hkeyd i, if_neg hine]
    obtain ⟨h1, h2⟩ := hI.occ i hio
    have hkik : (c.nodes i).key ≠ k := by
      intro he
      apply hine
      exact hI.occ_key_inj hio hocc (he.trans hkeyn.symm)
    refine ⟨h1, ?_⟩
    show lookupT (eraseT c.table k) ((c.nodes i).key) = Option.some i
    rw [lookupT_eraseT_other _ hkik]
    exact h2
  · intro p hp
    have hp0 : p ∈ eraseT c.table k := hp
    have hpt : p ∈ c.table := eraseT_subset hp0
    obtain ⟨h1, h2⟩ := hI.tbl p hpt
    have hpn : p.2 ≠ n := by
      intro he
      have hpk : p.1 = k := by rw [← h2, he, hkeyn]
      have h3 : lookupT (eraseT c.table k) k = Option.none :=
        lookupT_eraseT_self hI.keys_nodup
      have h4 := (lookupT_eq_none_iff _ _).mp h3
      exact h4 (List.mem_map.mpr ⟨p, hp0, hpk ▸ rfl⟩)
    refine ⟨?_, ?_⟩
    · rw [hoccd]
      exact (List.mem_erase_of_ne hpn).mpr h1
    · rw [hkeyd p.2, if_neg hpn]
      exact h2
  · intro i hi
    rw [hempd] at hi
    rcases List.mem_append.mp hi with h | h
    · have hine : i ≠ n := by
        intro he
        exact occ_emp_disjoint hI.nodup n hocc (he ▸ h)
      rw [hkeyd i, if_neg hine, hobjd i, if_neg hine]
      exact hI.emp i h
    · rw [List.mem_singleton] at h
      subst h
      rw [hkeyd i, if_pos rfl, hobjd i, if_pos rfl]
      exact ⟨rfl, rfl⟩

end lrucache

namespace lrucache

theorem lrucache_ext {a b : lrucache} (hs : a.size = b.size)
    (hh : a.head = b.head) (hn : ∀ j, a.nodes j = b.nodes j)
    (ht : a.table = b.table) : a = b := by
  cases a; cases b
  simp only at hs hh ht
  subst hs; subst hh; subst ht
  have : _ = _ := funext hn
  simp only at this
  rw [this]

/-- Every public operation keeps the arena size. -/
theorem applyOp_size (c : lrucache) (op : Op) : (applyOp c op).size = c.size := by
  cases op with
  | get k =>
    simp only [applyOp]
    cases hlk : lookupT c.table k with
    | none => rw [getitem_eq_error c hlk]
    | some n =>
      rw [getitem_eq c hlk]
      rfl
  | set k v =>
    simp only [applyOp]
    cases hlk : lookupT c.table k with
    | some n =>
      rw [setitem_update_eq c v hlk]
      rfl
    | none =>
      by_cases hkey : (c.nodes ((c.nodes c.head).prev)).key = PyVal.none
      · rw [setitem_insert_eq_empty c v hlk hkey]
        rfl
      · cases hm : lookupT c.table ((c.nodes ((c.nodes c.head).prev)).key) with
        | none => rw [setitem_insert_eq_error c v hlk hkey hm]
        | some m =>
          rw [setitem_insert_eq_evict c v hlk hkey hm]
          rfl
  | del k =>
    simp only [applyOp]
    cases hlk : lookupT c.table k with
    | none => rw [delitem_eq_error c hlk]
    | some n =>
      rw [delitem_eq_state c hlk]
      rfl
  | clr => rfl

theorem run_size (ops : List Op) : ∀ c : lrucache, (run c ops).size = c.size := by
  induction ops with
  | nil => intro c; rfl
  | cons op t ih =>
    intro c
    show (run (applyOp c op) t).size = c.size
    rw [ih (applyOp c op), applyOp_size]

/-- Overwriting the object of an occupied slot preserves the invariant and
keeps both walk segments. -/
theorem Inv_setObj_occ (c : lrucache) (hI : Inv c) {n : Nat}
    (hocc : n ∈ occL c) (v : PyVal) :
    Inv (setObj c n v) ∧ occL (setObj c n v) = occL c ∧
    empL (setObj c n v) = empL c := by
  have hw : walkL (setObj c n v) = walkL c :=
    walkL_congr (fun j => setObj_nodes_next c n v j) rfl rfl
  have hoccs : occL (setObj c n v) = occL c := by
    show (walkL (setObj c n v)).take (len (setObj c n v)) = _
    rw [hw]
    rfl
  have hemps : empL (setObj c n v) = empL c := by
    show (walkL (setObj c n v)).drop (len (setObj c n v)) = _
    rw [hw]
    rfl
  refine ⟨⟨⟨WFr_congr2 (fun j => setObj_nodes_next c n v j)
      (fun j => setObj_nodes_prev c n v j) rfl rfl hI.wfr,
      hw ▸ hI.nodup⟩, ?_, ?_, ?_, ?_, ?_⟩, hoccs, hemps⟩
  · show len c ≤ c.size
    exact hI.len_le
  · show (c.table.map Prod.fst).Nodup
    exact hI.keys_nodup
  · intro i hi
    rw [hoccs] at hi
    rw [setObj_nodes_key]
    show (c.nodes i).key ≠ PyVal.none ∧
      lookupT c.table ((c.nodes i).key) = Option.some i
    exact hI.occ i hi
  · intro p hp
    obtain ⟨h1, h2⟩ := hI.tbl p hp
    rw [hoccs, setObj_nodes_key]
    exact ⟨h1, h2⟩
  · intro i hi
    rw [hemps] at hi
    have hin : i ≠ n := by
      intro he
      exact occ_emp_disjoint hI.nodup n hocc (he ▸ hi)
    rw [setObj_nodes_key, setObj_nodes_obj, if_neg hin]
    exact hI.emp i hi

/-- Under the invariant, `__setitem__` with a non-`None` key never raises
and preserves the invariant. -/
theorem Inv_setitem (c : lrucache) (hI : Inv c) {k : PyVal} (v : PyVal)
    (hk : k ≠ PyVal.none) :
    ∃ c', setitem c k v = Except.ok c' ∧ Inv c' := by
  cases hlk : lookupT c.table k with
  | some n =>
    obtain ⟨hocc, hkey⟩ := hI.lookup_occ hlk
    obtain ⟨hI0, hocc0, _⟩ := Inv_setObj_occ c hI hocc v
    refine ⟨_, setitem_update_eq c v hlk, ?_⟩
    exact (Inv_promote (setObj c n v) hI0 (hocc0 ▸ hocc)).1
  | none =>
    by_cases hkey : (c.nodes ((c.nodes c.head).prev)).key = PyVal.none
    · exact ⟨_, setitem_insert_eq_empty c v hlk hkey,
        (Inv_insert_empty c hI v hk hlk hkey).1⟩
    · have hth : (c.nodes c.head).prev < c.size :=
        (hI.wfr.2 c.head hI.wfr.1).2.1
      have htw : (c.nodes c.head).prev ∈ walkL c :=
        walkL_cover c hI.wfr hI.nodup _ hth
      have htocc : (c.nodes c.head).prev ∈ occL c := by
        rw [walk_eq_occ_emp c] at htw
        rcases List.mem_append.mp htw with h | h
        · exact h
        · exact absurd (hI.emp _ h).1 hkey
      have hm : lookupT c.table ((c.nodes ((c.nodes c.head).prev)).key) =
          Option.some ((c.nodes c.head).prev) := (hI.occ _ htocc).2
      exact ⟨_, setitem_insert_eq_evict c v hlk hkey hm,
        (Inv_insert_evict c hI v hk hlk hkey).1⟩

/-- The operations under which the full invariant is preserved: everything
except `clear`, with `set` restricted to non-`None` keys. -/
def opOK : Op → Prop
  | Op.set k _ => k ≠ PyVal.none
  | Op.clr => False
  | _ => True

instance (op : Op) : Decidable (opOK op) := by
  cases op with
  | get k => exact Decidable.isTrue trivial
  | set k v => show Decidable (k ≠ PyVal.none); infer_instance
  | del k => exact Decidable.isTrue trivial
  | clr => exact Decidable.isFalse (fun h => h)

/-- Invariant preservation, one public operation at a time. -/
theorem Inv_applyOp (c : lrucache) (op : Op) (hI : Inv c) (hop : opOK op) :
    Inv (applyOp c op) := by
  cases op with
  | get k =>
    simp only [applyOp]
    cases hlk : lookupT c.table k with
    | none =>
      rw [getitem_eq_error c hlk]
      exact hI
    | some n =>
      rw [getitem_eq c hlk]
      exact (Inv_promote c hI (hI.lookup_occ hlk).1).1
  | set k v =>
    obtain ⟨c', hok, hI'⟩ := Inv_setitem c hI v hop
    simp only [applyOp]
    rw [hok]
    exact hI'
  | del k =>
    simp only [applyOp]
    cases hlk : lookupT c.table k with
    | none =>
      rw [delitem_eq_error c hlk]
      exact hI
    | some n =>
      rw [delitem_eq_state c hlk]
      exact (Inv_delitem c hI hlk).1
  | clr => exact absurd hop (fun h => h)

/-- Invariant preservation over a whole run. -/
theorem Inv_run (ops : List Op) : ∀ c : lrucache, Inv c →
    (∀ op ∈ ops, opOK op) → Inv (run c ops) := by
  induction ops with
  | nil => intro c hI _; exact hI
  | cons op t ih =>
    intro c hI hops
    show Inv (run (applyOp c op) t)
    exact ih (applyOp c op)
      (Inv_applyOp c op hI (hops op (List.mem_cons_self _ _)))
      (fun o ho => hops o (List.mem_cons_of_mem _ ho))

end lrucache

namespace lrucache

theorem nodup_snd_of_keys (t : List (PyVal × Nat)) (f : Nat → PyVal)
    (hnd : (t.map Prod.fst).Nodup) (h : ∀ p ∈ t, f p.2 = p.1) :
    (t.map Prod.snd).Nodup := by
  induction t with
  | nil => exact List.nodup_nil
  | cons p t ih =>
    rw [List.map_cons, List.nodup_cons] at hnd ⊢
    refine ⟨?_, ih hnd.2 (fun q hq => h q (List.mem_cons_of_mem _ hq))⟩
    intro hmem
    obtain ⟨q, hq, he⟩ := List.mem_map.mp hmem
    apply hnd.1
    have h1 : f q.2 = q.1 := h q (List.mem_cons_of_mem _ hq)
    have h2 : f p.2 = p.1 := h p (List.mem_cons_self _ _)
    have h3 : q.1 = p.1 := by rw [← h1, ← h2, he]
    exact List.mem_map.mpr ⟨q, hq, h3⟩

theorem nodup_lt_length_le (l : List Nat) (n : Nat) (hnd : l.Nodup)
    (hlt : ∀ x ∈ l, x < n) : l.length ≤ n := by
  have h1 : l.toFinset ⊆ Finset.range n := fun x hx =>
    Finset.mem_range.mpr (hlt x (List.mem_toFinset.mp hx))
  have h2 := Finset.card_le_card h1
  rwa [List.toFinset_card_of_nodup hnd, Finset.card_range] at h2

/-- The weak table invariant alone bounds the cache length by the arena
size: entries point at pairwise distinct in-range slots. -/
theorem Wk_len_le (c : lrucache) (hwk : Wk c) : len c ≤ c.size := by
  have hsnd := nodup_snd_of_keys c.table (fun j => (c.nodes j).key) hwk.1
    (fun p hp => (hwk.2 p hp).2.1)
  have hlt : ∀ x ∈ c.table.map Prod.snd, x < c.size := by
    intro x hx
    obtain ⟨p, hp, he⟩ := List.mem_map.mp hx
    exact he ▸ (hwk.2 p hp).1
  have h := nodup_lt_length_le _ _ hsnd hlt
  rw [List.length_map] at h
  exact h

/-- The weak well-formedness pair: ring links plus the weak table
invariant.  Unlike `Inv` it survives `clear`. -/
def Rw (c : lrucache) : Prop := WFr c ∧ Wk c

/-- The operations under which `Rw` is preserved: everything (including
`clear`), with `set` restricted to non-`None` keys. -/
def opKeyOK : Op → Prop
  | Op.set k _ => k ≠ PyVal.none
  | _ => True

instance (op : Op) : Decidable (opKeyOK op) := by
  cases op with
  | get k => exact Decidable.isTrue trivial
  | set k v => show Decidable (k ≠ PyVal.none); infer_instance
  | del k => exact Decidable.isTrue trivial
  | clr => exact Decidable.isTrue trivial

set_option maxHeartbeats 1600000 in
/-- `Rw` preservation, one public operation at a time: `clear` empties the
table (vacuously keeping `Wk`), every other operation either raises before
mutating or rebuilds the table consistently. -/
theorem Rw_applyOp (c : lrucache) (op : Op) (hR : Rw c) (hop : opKeyOK op) :
    Rw (applyOp c op) := by
  obtain ⟨hwf, hknd, hent⟩ := hR
  cases op with
  | clr =>
    refine ⟨WFr_congr2 (fun j => rfl) (fun j => rfl) rfl rfl hwf, ?_, ?_⟩
    · show (([] : List (PyVal × Nat)).map Prod.fst).Nodup
      exact List.nodup_nil
    · intro p hp
      exact absurd hp (List.not_mem_nil p)
  | get k =>
    simp only [applyOp]
    cases hlk : lookupT c.table k with
    | none =>
      rw [getitem_eq_error c hlk]
      exact ⟨hwf, hknd, hent⟩
    | some n =>
      rw [getitem_eq c hlk]
      have hn_lt : n < c.size := (hent _ (lookupT_mem hlk)).1
      refine ⟨⟨?_, ?_⟩, ?_, ?_⟩
      · show n < c.size
        exact hn_lt
      · intro i hi
        exact (WFr_mtf c hwf hn_lt).2 i hi
      · show (c.table.map Prod.fst).Nodup
        exact hknd
      · intro p hp
        obtain ⟨h1, h2, h3⟩ := hent p hp
        refine ⟨h1, ?_, h3⟩
        show ((mtf c n).nodes p.2).key = p.1
        rw [mtf_nodes_key]
        exact h2
  | del k =>
    simp only [applyOp]
    cases hlk : lookupT c.table k with
    | none =>
      rw [delitem_eq_error c hlk]
      exact ⟨hwf, hknd, hent⟩
    | some n =>
      rw [delitem_eq_state c hlk]
      have hn_lt : n < c.size := (hent _ (lookupT_mem hlk)).1
      have hkeyn : (c.nodes n).key = k := (hent _ (lookupT_mem hlk)).2.1
      set c3 : lrucache :=
        setObj (setKey { c with table := eraseT c.table k } n PyVal.none)
          n PyVal.none with hc3
      have hc3n : ∀ j, (c3.nodes j).next = (c.nodes j).next := by
        intro j
        rw [hc3, setObj_nodes_next, setKey_nodes_next]
      have hc3p : ∀ j, (c3.nodes j).prev = (c.nodes j).prev := by
        intro j
        rw [hc3, setObj_nodes_prev, setKey_nodes_prev]
      have hwfr3 : WFr c3 := WFr_congr2 hc3n hc3p rfl rfl hwf
      have hwfm := WFr_mtf c3 hwfr3 hn_lt
      have hkeyd : ∀ j, ((delState c k n).nodes j).key =
          if j = n then PyVal.none else (c.nodes j).key := by
        intro j
        show ((mtf c3 n).nodes j).key = _
        rw [mtf_nodes_key c3 n j, hc3, setObj_nodes_key, setKey_nodes_key]
      refine ⟨⟨?_, ?_⟩, ?_, ?_⟩
      · show ((mtf c3 n).nodes n).next < c.size
        exact (hwfm.2 n hn_lt).1
      · intro i hi
        exact hwfm.2 i hi
      · show ((eraseT c.table k).map Prod.fst).Nodup
        exact eraseT_keys_nodup hknd
      · intro p hp
        have hp0 : p ∈ eraseT c.table k := hp
        have hpt : p ∈ c.table := eraseT_subset hp0
        obtain ⟨h1, h2, h3⟩ := hent p hpt
        have hpn : p.2 ≠ n := by
          intro he
          have hpk : p.1 = k := by rw [← h2, he, hkeyn]
          have h4 : lookupT (eraseT c.table k) k = Option.none :=
            lookupT_eraseT_self hknd
          have h5 := (lookupT_eq_none_iff _ _).mp h4
          exact h5 (List.mem_map.mpr ⟨p, hp0, hpk ▸ rfl⟩)
        refine ⟨h1, ?_, h3⟩
        rw [hkeyd p.2, if_neg hpn]
        exact h2
  | set k v =>
    simp only [applyOp]
    cases hlk : lookupT c.table k with
    | some n =>
      rw [setitem_update_eq c v hlk]
      have hn_lt : n < c.size := (hent _ (lookupT_mem hlk)).1
      have hwfs : WFr (setObj c n v) :=
        WFr_congr2 (fun j => setObj_nodes_next c n v j)
          (fun j => setObj_nodes_prev c n v j) rfl rfl hwf
      refine ⟨⟨?_, ?_⟩, ?_, ?_⟩
      · show n < c.size
        exact hn_lt
      · intro i hi
        exact (WFr_mtf _ hwfs hn_lt).2 i hi
      · show (c.table.map Prod.fst).Nodup
        exact hknd
      · intro p hp
        obtain ⟨h1, h2, h3⟩ := hent p hp
        refine ⟨h1, ?_, h3⟩
        show ((mtf (setObj c n v) n).nodes p.2).key = p.1
        rw [mtf_nodes_key, setObj_nodes_key]
        exact h2
    | none =>
      by_cases hkey : (c.nodes ((c.nodes c.head).prev)).key = PyVal.none
      · rw [setitem_insert_eq_empty c v hlk hkey]
        have hins : (insertState c k v).table =
            c.table ++ [(k, (c.nodes c.head).prev)] := by
          rw [insertState_table, insertT_of_absent _ hlk]
        refine ⟨⟨?_, ?_⟩, ?_, ?_⟩
        · show (c.nodes c.head).prev < c.size
          exact (hwf.2 c.head hwf.1).2.1
        · intro i hi
          simp only [insertState_size] at hi
          simp only [insertState_nodes_next, insertState_nodes_prev,
            insertState_size]
          exact hwf.2 i hi
        · rw [hins, List.map_append, List.nodup_append]
          refine ⟨hknd, by simp, ?_⟩
          intro x hx hx2
          simp at hx2
          rw [hx2] at hx
          exact (lookupT_eq_none_iff _ _).mp hlk hx
        · intro p hp
          rw [hins] at hp
          rcases List.mem_append.mp hp with h | h
          · obtain ⟨h1, h2, h3⟩ := hent p h
            have hpt : p.2 ≠ (c.nodes c.head).prev := by
              intro he
              rw [he, hkey] at h2
              exact h3 h2.symm
            refine ⟨h1, ?_, h3⟩
            rw [insertState_nodes_key, if_neg hpt]
            exact h2
          · rw [List.mem_singleton] at h
            subst h
            refine ⟨(hwf.2 c.head hwf.1).2.1, ?_, hop⟩
            show ((insertState c k v).nodes ((c.nodes c.head).prev)).key = k
            rw [insertState_nodes_key, if_pos rfl]
      · cases hm : lookupT c.table ((c.nodes ((c.nodes c.head).prev)).key) with
        | none =>
          rw [setitem_insert_eq_error c v hlk hkey hm]
          exact ⟨hwf, hknd, hent⟩
        | some m =>
          rw [setitem_insert_eq_evict c v hlk hkey hm]
          have hemem : (c.nodes ((c.nodes c.head).prev)).key ∈
              c.table.map Prod.fst :=
            List.mem_map.mpr ⟨_, lookupT_mem hm, rfl⟩
          have hke : k ≠ (c.nodes ((c.nodes c.head).prev)).key := by
            intro he
            exact (lookupT_eq_none_iff _ _).mp hlk (he ▸ hemem)
          have habs0 : lookupT
              (eraseT c.table ((c.nodes ((c.nodes c.head).prev)).key)) k =
              Option.none := by
            rw [lookupT_eraseT_other _ hke]
            exact hlk
          set c0 : lrucache :=
            { size := c.size, head := c.head, nodes := c.nodes,
              table := eraseT c.table ((c.nodes ((c.nodes c.head).prev)).key) }
            with hc0
          have hins : (insertState c0 k v).table =
              eraseT c.table ((c.nodes ((c.nodes c.head).prev)).key) ++
                [(k, (c.nodes c.head).prev)] := by
            rw [insertState_table, insertT_of_absent _ habs0]
          refine ⟨⟨?_, ?_⟩, ?_, ?_⟩
          · show (c.nodes c.head).prev < c.size
            exact (hwf.2 c.head hwf.1).2.1
          · intro i hi
            simp only [insertState_size] at hi
            simp only [insertState_nodes_next, insertState_nodes_prev,
              insertState_size]
            exact hwf.2 i hi
          · rw [hins, List.map_append, List.nodup_append]
            refine ⟨eraseT_keys_nodup hknd, by simp, ?_⟩
            intro x hx hx2
            simp at hx2
            rw [hx2] at hx
            exact (lookupT_eq_none_iff _ _).mp habs0 hx
          · intro p hp
            rw [hins] at hp
            rcases List.mem_append.mp hp with h | h
            · have hpt : p ∈ c.table := eraseT_subset h
              obtain ⟨h1, h2, h3⟩ := hent p hpt
              have hpn : p.2 ≠ (c.nodes c.head).prev := by
                intro he
                have hpk : p.1 = (c.nodes ((c.nodes c.head).prev)).key := by
                  rw [← h2, he]
                have h4 : lookupT
                    (eraseT c.table ((c.nodes ((c.nodes c.head).prev)).key))
                    ((c.nodes ((c.nodes c.head).prev)).key) = Option.none :=
                  lookupT_eraseT_self hknd
                have h5 := (lookupT_eq_none_iff _ _).mp h4
                exact h5 (List.mem_map.mpr ⟨p, h, hpk ▸ rfl⟩)
              refine ⟨h1, ?_, h3⟩
              show ((insertState c0 k v).nodes p.2).key = p.1
              rw [insertState_nodes_key]
              show (if p.2 = (c.nodes c.head).prev then k
                else (c.nodes p.2).key) = p.1
              rw [if_neg hpn]
              exact h2
            · rw [List.mem_singleton] at h
              subst h
              refine ⟨(hwf.2 c.head hwf.1).2.1, ?_, hop⟩
              show ((insertState c0 k v).nodes ((c.nodes c.head).prev)).key = k
              rw [insertState_nodes_key]
              show (if (c.nodes c.head).prev = (c.nodes c.head).prev then k
                else (c.nodes ((c.nodes c.head).prev)).key) = k
              rw [if_pos rfl]

/-- `Rw` preservation over a whole run. -/
theorem Rw_run (ops : List Op) : ∀ c : lrucache, Rw c →
    (∀ op ∈ ops, opKeyOK op) → Rw (run c ops) := by
  induction ops with
  | nil => intro c hR _; exact hR
  | cons op t ih =>
    intro c hR hops
    show Rw (run (applyOp c op) t)
    exact ih (applyOp c op)
      (Rw_applyOp c op hR (hops op (List.mem_cons_self _ _)))
      (fun o ho => hops o (List.mem_cons_of_mem _ ho))

/-- A fresh cache satisfies `Rw`. -/
theorem Rw_init (n : Nat) (hn : 0 < n) : Rw (init n) := by
  have ht : (init n).table = [] := foldl_addNode_table _ _
  refine ⟨(Inv_init n hn).wfr, ?_, ?_⟩
  · rw [ht]
    exact List.nodup_nil
  · intro p hp
    rw [ht] at hp
    exact absurd hp (List.not_mem_nil p)

end lrucache

namespace lrucache

/-- The slot-emptiness invariant of spec §3: a slot's key is the empty
sentinel exactly when its object is. -/
def Sempty (c : lrucache) : Prop :=
  ∀ j, j < c.size →
    ((c.nodes j).key = PyVal.none ↔ (c.nodes j).obj = PyVal.none)

instance (c : lrucache) : Decidable (Sempty c) := by
  unfold Sempty
  infer_instance

/-- The operations under which `Sempty` is preserved: everything, with
`set` restricted to non-`None` keys and non-`None` stored values. -/
def opSOK : Op → Prop
  | Op.set k v => k ≠ PyVal.none ∧ v ≠ PyVal.none
  | _ => True

instance (op : Op) : Decidable (opSOK op) := by
  cases op with
  | get k => exact Decidable.isTrue trivial
  | set k v => show Decidable (k ≠ PyVal.none ∧ v ≠ PyVal.none); infer_instance
  | del k => exact Decidable.isTrue trivial
  | clr => exact Decidable.isTrue trivial

theorem opSOK_keyOK (op : Op) (h : opSOK op) : opKeyOK op := by
  cases op with
  | set k v => exact h.1
  | get k => exact trivial
  | del k => exact trivial
  | clr => exact trivial

set_option maxHeartbeats 1600000 in
/-- Slot-emptiness preservation, one public operation at a time, under the
weak well-formedness pair. -/
theorem Sempty_applyOp (c : lrucache) (op : Op) (hR : Rw c) (hS : Sempty c)
    (hop : opSOK op) : Sempty (applyOp c op) := by
  obtain ⟨hwf, hknd, hent⟩ := hR
  cases op with
  | clr => exact hS
  | get k =>
    simp only [applyOp]
    cases hlk : lookupT c.table k with
    | none =>
      rw [getitem_eq_error c hlk]
      exact hS
    | some n =>
      rw [getitem_eq c hlk]
      intro j hj
      have h1 : (({ mtf c n with head := n } : lrucache).nodes j).key =
          (c.nodes j).key := mtf_nodes_key c n j
      have h2 : (({ mtf c n with head := n } : lrucache).nodes j).obj =
          (c.nodes j).obj := mtf_nodes_obj c n j
      rw [h1, h2]
      exact hS j hj
  | del k =>
    simp only [applyOp]
    cases hlk : lookupT c.table k with
    | none =>
      rw [delitem_eq_error c hlk]
      exact hS
    | some n =>
      rw [delitem_eq_state c hlk]
      set c3 : lrucache :=
        setObj (setKey { c with table := eraseT c.table k } n PyVal.none)
          n PyVal.none with hc3
      have hkeyd : ∀ j, ((delState c k n).nodes j).key =
          if j = n then PyVal.none else (c.nodes j).key := by
        intro j
        show ((mtf c3 n).nodes j).key = _
        rw [mtf_nodes_key c3 n j, hc3, setObj_nodes_key, setKey_nodes_key]
      have hobjd : ∀ j, ((delState c k n).nodes j).obj =
          if j = n then PyVal.none else (c.nodes j).obj := by
        intro j
        show ((mtf c3 n).nodes j).obj = _
        rw [mtf_nodes_obj c3 n j, hc3, setObj_nodes_obj, setKey_nodes_obj]
      intro j hj
      rw [hkeyd j, hobjd j]
      by_cases hjn : j = n
      · rw [if_pos hjn, if_pos hjn]
      · rw [if_neg hjn, if_neg hjn]
        exact hS j hj
  | set k v =>
    simp only [applyOp]
    cases hlk : lookupT c.table k with
    | some n =>
      rw [setitem_update_eq c v hlk]
      have hkeyn : (c.nodes n).key = k := (hent _ (lookupT_mem hlk)).2.1
      intro j hj
      have h1 : (({ mtf (setObj c n v) n with head := n } : lrucache).nodes
          j).key = (c.nodes j).key := by
        rw [mtf_nodes_key, setObj_nodes_key]
      have h2 : (({ mtf (setObj c n v) n with head := n } : lrucache).nodes
          j).obj = if j = n then v else (c.nodes j).obj := by
        rw [mtf_nodes_obj, setObj_nodes_obj]
      rw [h1, h2]
      by_cases hjn : j = n
      · rw [if_pos hjn, hjn, hkeyn]
        exact iff_of_false hop.1 hop.2
      · rw [if_neg hjn]
        exact hS j hj
    | none =>
      by_cases hkey : (c.nodes ((c.nodes c.head).prev)).key = PyVal.none
      · rw [setitem_insert_eq_empty c v hlk hkey]
        intro j hj
        rw [insertState_nodes_key, insertState_nodes_obj]
        by_cases hjt : j = (c.nodes c.head).prev
        · rw [if_pos hjt, if_pos hjt]
          exact iff_of_false hop.1 hop.2
        · rw [if_neg hjt, if_neg hjt]
          exact hS j hj
      · cases hm : lookupT c.table ((c.nodes ((c.nodes c.head).prev)).key) with
        | none =>
          rw [setitem_insert_eq_error c v hlk hkey hm]
          exact hS
        | some m =>
          rw [setitem_insert_eq_evict c v hlk hkey hm]
          set c0 : lrucache :=
            { size := c.size, head := c.head, nodes := c.nodes,
              table := eraseT c.table ((c.nodes ((c.nodes c.head).prev)).key) }
            with hc0
          intro j hj
          rw [insertState_nodes_key, insertState_nodes_obj]
          show ((if j = (c.nodes c.head).prev then k else (c.nodes j).key)
              = PyVal.none ↔
            (if j = (c.nodes c.head).prev then v else (c.nodes j).obj)
              = PyVal.none)
          by_cases hjt : j = (c.nodes c.head).prev
          · rw [if_pos hjt, if_pos hjt]
            exact iff_of_false hop.1 hop.2
          · rw [if_neg hjt, if_neg hjt]
            exact hS j hj

/-- Joint `Rw` and slot-emptiness preservation over a whole run. -/
theorem Sempty_run (ops : List Op) : ∀ c : lrucache, Rw c → Sempty c →
    (∀ op ∈ ops, opSOK op) → Rw (run c ops) ∧ Sempty (run c ops) := by
  induction ops with
  | nil => intro c hR hS _; exact ⟨hR, hS⟩
  | cons op t ih =>
    intro c hR hS hops
    show Rw (run (applyOp c op) t) ∧ Sempty (run (applyOp c op) t)
    have hop := hops op (List.mem_cons_self _ _)
    exact ih (applyOp c op)
      (Rw_applyOp c op hR (opSOK_keyOK op hop))
      (Sempty_applyOp c op hR hS hop)
      (fun o ho => hops o (List.mem_cons_of_mem _ ho))

/-- A fresh cache has all slots empty. -/
theorem Sempty_init (n : Nat) : Sempty (init n) := by
  intro j hj
  rw [init_nodes n j]

end lrucache

namespace lrucache

/-- A state that already holds `k ↦ n` at its head with object `v` is a
fixed point of `setitem k v`. -/
theorem setitem_fix (c1 : lrucache) {k v : PyVal} {n : Nat} (hwf1 : WFr c1)
    (hl1 : lookupT c1.table k = Option.some n) (hh : c1.head = n)
    (ho : (c1.nodes n).obj = v) : setitem c1 k v = Except.ok c1 := by
  rw [setitem_update_eq c1 v hl1]
  have h1 : setObj c1 n v = c1 := by
    refine lrucache_ext rfl rfl ?_ rfl
    intro j
    rw [setObj_nodes]
    by_cases hjn : j = n
    · rw [if_pos hjn, hjn]
      exact dlnode_ext rfl rfl rfl ho.symm
    · rw [if_neg hjn]
  rw [h1]
  have h2 : mtf c1 n = c1 := by
    refine lrucache_ext rfl rfl ?_ rfl
    intro j
    rw [← hh]
    exact mtf_nodes_self c1 hwf1 j
  rw [h2, ← hh]

end lrucache

namespace lrucache

/-- C2 (amended): `__delitem__` of a key absent from the table is NOT a
silent no-op: it raises `KeyError` (the claim's silent-no-op reading is
refuted by `C2_second_delete_raises`).  The raise happens before any
mutation, so the cache state is unchanged. -/
theorem C2_delete_absent_raises (c : lrucache) {k : PyVal}
    (habs : lookupT c.table k = Option.none) :
    delitem c k = Except.error () ∧ applyOp c (Op.del k) = c := by
  refine ⟨delitem_eq_error c habs, ?_⟩
  simp only [applyOp]
  rw [delitem_eq_error c habs]

/-- C2, counterexample to the claimed scenario: after `set("a",1);
delete("a")`, a second `delete("a")` raises `KeyError` (it is not a silent
no-op), even though `contains("a")` is indeed false. -/
theorem C2_second_delete_raises :
    delitem (run (init 2) [Op.set (PyVal.str 0) (PyVal.int 1),
      Op.del (PyVal.str 0)]) (PyVal.str 0) = Except.error () ∧
    contains (run (init 2) [Op.set (PyVal.str 0) (PyVal.int 1),
      Op.del (PyVal.str 0)]) (PyVal.str 0) = false :=
  ⟨rfl, by decide⟩

/-- C4 (code bug): after `clear()` the Index is empty and `contains` is
false for every key, but a subsequent fresh `set` does NOT succeed: the
insert path executes `del self.table[node.key]` on the stale slot key and
raises `KeyError`. -/
theorem C4_set_after_clear_raises :
    len (clear (run (init 1) [Op.set (PyVal.int 1) (PyVal.int 1)])) = 0 ∧
    contains (clear (run (init 1) [Op.set (PyVal.int 1) (PyVal.int 1)]))
      (PyVal.int 2) = false ∧
    setitem (clear (run (init 1) [Op.set (PyVal.int 1) (PyVal.int 1)]))
      (PyVal.int 2) (PyVal.int 2) = Except.error () :=
  ⟨by decide, by decide, rfl⟩

/-- C6: on a well-formed ring, `mtf slot` keeps `head`; for `slot ≠ head`
it relinks so that `slot.next = head` and only moves `slot` to the back of
the head walk (the relative order of all other slots is unchanged); when
`slot.next = head` already holds it is a no-op on every node; and when
`slot = head` every node is likewise unchanged (identical cycle
topology). -/
theorem C6_mtf_correct (c : lrucache) (hwf : WFring c) {s : Nat}
    (hs : s < c.size) :
    (mtf c s).head = c.head ∧
    (s ≠ c.head → ((mtf c s).nodes s).next = c.head ∧
      walkL (mtf c s) = (walkL c).erase s ++ [s]) ∧
    ((c.nodes s).next = c.head → ∀ j, (mtf c s).nodes j = c.nodes j) ∧
    (s = c.head → ∀ j, (mtf c s).nodes j = c.nodes j) := by
  refine ⟨rfl, ?_, ?_, ?_⟩
  · intro hsh
    exact ⟨mtf_next_eq_head c hwf.1 hs hsh, mtf_walkL c hwf.1 hwf.2 hs hsh⟩
  · intro hnx j
    by_cases hsh : s = c.head
    · rw [hsh]
      exact mtf_nodes_self c hwf.1 j
    · exact mtf_nodes_tail c hwf.1 hs hsh hnx j
  · intro hsh j
    rw [hsh]
    exact mtf_nodes_self c hwf.1 j

/-- C9: re-running `set k v` is idempotent — if `set k v` turned `c` into
`c1`, then `set k v` on `c1` succeeds and returns `c1` itself, so length,
key set, stored objects and the whole recency order coincide with a single
`set`. -/
theorem C9_set_idempotent (c c1 : lrucache) (hwf : WFr c)
    (htb : ∀ p ∈ c.table, p.2 < c.size) (k v : PyVal)
    (hok : setitem c k v = Except.ok c1) :
    setitem c1 k v = Except.ok c1 := by
  cases hlk : lookupT c.table k with
  | some n =>
    rw [setitem_update_eq c v hlk] at hok
    have hc1 : c1 = { mtf (setObj c n v) n with head := n } :=
      (Except.ok.inj hok).symm
    have hn_lt : n < c.size := htb _ (lookupT_mem hlk)
    have hwfs : WFr (setObj c n v) :=
      WFr_congr2 (fun j => setObj_nodes_next c n v j)
        (fun j => setObj_nodes_prev c n v j) rfl rfl hwf
    refine @setitem_fix c1 k v n ?_ ?_ ?_ ?_
    · rw [hc1]
      refine ⟨?_, ?_⟩
      · show n < c.size
        exact hn_lt
      · intro i hi
        exact (WFr_mtf _ hwfs hn_lt).2 i hi
    · rw [hc1]
      show lookupT c.table k = Option.some n
      exact hlk
    · rw [hc1]
    · rw [hc1]
      show ((mtf (setObj c n v) n).nodes n).obj = v
      rw [mtf_nodes_obj, setObj_nodes_obj, if_pos rfl]
  | none =>
    by_cases hkey : (c.nodes ((c.nodes c.head).prev)).key = PyVal.none
    · rw [setitem_insert_eq_empty c v hlk hkey] at hok
      have hc1 : c1 = insertState c k v := (Except.ok.inj hok).symm
      refine @setitem_fix c1 k v ((c.nodes c.head).prev) ?_ ?_ ?_ ?_
      · rw [hc1]
        refine ⟨?_, ?_⟩
        · show (c.nodes c.head).prev < c.size
          exact (hwf.2 c.head hwf.1).2.1
        · intro i hi
          simp only [insertState_size] at hi
          simp only [insertState_nodes_next, insertState_nodes_prev,
            insertState_size]
          exact hwf.2 i hi
      · rw [hc1, insertState_table, insertT_of_absent _ hlk,
          lookupT_append_right hlk]
        simp [lookupT]
      · rw [hc1, insertState_head]
      · rw [hc1]
        show ((insertState c k v).nodes ((c.nodes c.head).prev)).obj = v
        rw [insertState_nodes_obj, if_pos rfl]
    · cases hm : lookupT c.table ((c.nodes ((c.nodes c.head).prev)).key) with
      | none =>
        rw [setitem_insert_eq_error c v hlk hkey hm] at hok
        exact Except.noConfusion hok
      | some m =>
        rw [setitem_insert_eq_evict c v hlk hkey hm] at hok
        set c0 : lrucache :=
          { size := c.size, head := c.head, nodes := c.nodes,
            table := eraseT c.table ((c.nodes ((c.nodes c.head).prev)).key) }
          with hc0
        have hc1 : c1 = insertState c0 k v := (Except.ok.inj hok).symm
        have hke : k ≠ (c.nodes ((c.nodes c.head).prev)).key := by
          intro he
          have hmem : (c.nodes ((c.nodes c.head).prev)).key ∈
              c.table.map Prod.fst :=
            List.mem_map.mpr ⟨_, lookupT_mem hm, rfl⟩
          exact (lookupT_eq_none_iff _ _).mp hlk (he ▸ hmem)
        have habs0 : lookupT c0.table k = Option.none := by
          show lookupT (eraseT c.table _) k = Option.none
          rw [lookupT_eraseT_other _ hke]
          exact hlk
        refine @setitem_fix c1 k v ((c.nodes c.head).prev) ?_ ?_ ?_ ?_
        · rw [hc1]
          refine ⟨?_, ?_⟩
          · show (c.nodes c.head).prev < c.size
            exact (hwf.2 c.head hwf.1).2.1
          · intro i hi
            simp only [insertState_size] at hi
            simp only [insertState_nodes_next, insertState_nodes_prev,
              insertState_size]
            exact hwf.2 i hi
        · rw [hc1, insertState_table, insertT_of_absent _ habs0,
            lookupT_append_right habs0]
          simp [lookupT]
        · rw [hc1, insertState_head]
        · rw [hc1]
          show ((insertState c0 k v).nodes ((c0.nodes c0.head).prev)).obj = v
          rw [insertState_nodes_obj, if_pos rfl]

/-- C10: the implicit `None`-key edge case.  When `None` has been inserted
as a key and the slot holding it is reclaimed (`head.prev` with slot key
`None`), the insert path's `node.key == None` test treats the slot as
empty: no Index entry is removed, `contains(None)` stays true, the Index
entry for `None` still points at slot `m`, the reclaimed slot's key
becomes `k`, and `length()` grows by one. -/
theorem C10_none_key_skips_eviction (c : lrucache) (k v : PyVal) {m : Nat}
    (habs : lookupT c.table k = Option.none)
    (hkeyn : (c.nodes ((c.nodes c.head).prev)).key = PyVal.none)
    (hnone : lookupT c.table PyVal.none = Option.some m) :
    setitem c k v = Except.ok (insertState c k v) ∧
    contains (insertState c k v) PyVal.none = true ∧
    lookupT (insertState c k v).table PyVal.none = Option.some m ∧
    ((insertState c k v).nodes ((c.nodes c.head).prev)).key = k ∧
    len (insertState c k v) = len c + 1 := by
  have hins : (insertState c k v).table =
      c.table ++ [(k, (c.nodes c.head).prev)] := by
    rw [insertState_table, insertT_of_absent _ habs]
  have hlook : lookupT (insertState c k v).table PyVal.none =
      Option.some m := by
    rw [hins]
    exact lookupT_append_left hnone
  refine ⟨setitem_insert_eq_empty c v habs hkeyn, ?_, hlook, ?_, ?_⟩
  · show (lookupT (insertState c k v).table PyVal.none).isSome = true
    rw [hlook]
    rfl
  · rw [insertState_nodes_key, if_pos rfl]
  · rw [len, hins, List.length_append]
    rfl

end lrucache

namespace lrucache

/-- C1 (amended): the Index/Ring agreement invariant `Inv` — table keys
are exactly the keys of the occupied walk prefix from `head` in recency
order, with the empty slots contiguous at the tail — holds in every state
reachable from a fresh cache by public operations other than `clear`, with
`set` restricted to non-`None` keys (`clear` refutes the unrestricted
claim, see `C1_clear_breaks_invariant`). -/
theorem C1_invariant_preserved (n : Nat) (hn : 0 < n) (ops : List Op)
    (hops : ∀ op ∈ ops, opOK op) : Inv (run (init n) ops) :=
  Inv_run ops (init n) (Inv_init n hn) hops

/-- C1, counterexample: `clear` breaks the Index/Ring agreement invariant
(slots keep their stale keys while the table is emptied). -/
theorem C1_clear_breaks_invariant :
    Inv (run (init 1) [Op.set (PyVal.int 1) (PyVal.int 1)]) ∧
    ¬ Inv (run (init 1) [Op.set (PyVal.int 1) (PyVal.int 1), Op.clr]) := by
  decide

/-- C3 (amended): under the invariant with a non-`None` key: on a full
cache, inserting a fresh key evicts exactly the key of `head.prev` (which
was present) and adds `k`, every other key's membership unchanged and the
length constant; when `k` is already present, `set` overwrites in place —
the table is untouched, so no membership changes and nothing is evicted.
The unrestricted claim fails on reachable states holding `None` as a key
(`C3_none_key_no_eviction`). -/
theorem C3_eviction_determinism (c : lrucache) (hI : Inv c) {k : PyVal}
    (v : PyVal) (hk : k ≠ PyVal.none) :
    (len c = c.size → lookupT c.table k = Option.none →
      contains c ((c.nodes ((c.nodes c.head).prev)).key) = true ∧
      ∃ c', setitem c k v = Except.ok c' ∧
        contains c' ((c.nodes ((c.nodes c.head).prev)).key) = false ∧
        contains c' k = true ∧
        len c' = len c ∧
        (∀ q : PyVal, q ≠ k → q ≠ (c.nodes ((c.nodes c.head).prev)).key →
          contains c' q = contains c q)) ∧
    (∀ n, lookupT c.table k = Option.some n →
      ∃ c', setitem c k v = Except.ok c' ∧ len c' = len c ∧
        (∀ q : PyVal, contains c' q = contains c q)) := by
  constructor
  · intro hfull habs
    have hth : (c.nodes c.head).prev < c.size :=
      (hI.wfr.2 c.head hI.wfr.1).2.1
    have htw : (c.nodes c.head).prev ∈ walkL c :=
      walkL_cover c hI.wfr hI.nodup _ hth
    have hempnil : empL c = [] := List.eq_nil_of_length_eq_zero
      (by rw [empL_length]; omega)
    have htocc : (c.nodes c.head).prev ∈ occL c := by
      rw [walk_eq_occ_emp c, hempnil, List.append_nil] at htw
      exact htw
    have hkeyne := (hI.occ _ htocc).1
    have hm := (hI.occ _ htocc).2
    obtain ⟨hInv2, htable, hlen2, hlk_e⟩ :=
      Inv_insert_evict c hI v hk habs hkeyne
    have hke : k ≠ (c.nodes ((c.nodes c.head).prev)).key := by
      intro he
      rw [← he] at hm
      rw [habs] at hm
      exact Option.noConfusion hm
    have habs0 : lookupT
        (eraseT c.table ((c.nodes ((c.nodes c.head).prev)).key)) k =
        Option.none := by
      rw [lookupT_eraseT_other _ hke]
      exact habs
    refine ⟨?_, _, setitem_insert_eq_evict c v habs hkeyne hm,
      ?_, ?_, hlen2, ?_⟩
    · show (lookupT c.table ((c.nodes ((c.nodes c.head).prev)).key)).isSome
        = true
      rw [hm]
      rfl
    · show (lookupT _ ((c.nodes ((c.nodes c.head).prev)).key)).isSome = false
      rw [htable,
        lookupT_append_right (lookupT_eraseT_self hI.keys_nodup)]
      simp [lookupT, hke]
    · show (lookupT _ k).isSome = true
      rw [htable, lookupT_append_right habs0]
      simp [lookupT]
    · intro q hqk hqe
      show (lookupT _ q).isSome = (lookupT c.table q).isSome
      rw [htable]
      cases hq : lookupT c.table q with
      | some j =>
        rw [lookupT_append_left
          (by rw [lookupT_eraseT_other _ hqe]; exact hq)]
      | none =>
        rw [lookupT_append_right
          (by rw [lookupT_eraseT_other _ hqe]; exact hq)]
        simp [lookupT, Ne.symm hqk]
  · intro n hlk
    refine ⟨_, setitem_update_eq c v hlk, rfl, ?_⟩
    intro q
    rfl

/-- C3, counterexample: a reachable full cache (capacity 2, `None` held as
a key) in which inserting the fresh key `2` evicts nothing — all three
keys are present afterwards and the length exceeds the capacity. -/
theorem C3_none_key_no_eviction :
    len (run (init 2) [Op.set PyVal.none (PyVal.int 0),
      Op.set (PyVal.int 1) (PyVal.int 0)]) = (init 2).size ∧
    lookupT (run (init 2) [Op.set PyVal.none (PyVal.int 0),
      Op.set (PyVal.int 1) (PyVal.int 0)]).table (PyVal.int 2) =
      Option.none ∧
    len (run (init 2) [Op.set PyVal.none (PyVal.int 0),
      Op.set (PyVal.int 1) (PyVal.int 0),
      Op.set (PyVal.int 2) (PyVal.int 0)]) = 3 ∧
    contains (run (init 2) [Op.set PyVal.none (PyVal.int 0),
      Op.set (PyVal.int 1) (PyVal.int 0),
      Op.set (PyVal.int 2) (PyVal.int 0)]) PyVal.none = true ∧
    contains (run (init 2) [Op.set PyVal.none (PyVal.int 0),
      Op.set (PyVal.int 1) (PyVal.int 0),
      Op.set (PyVal.int 2) (PyVal.int 0)]) (PyVal.int 1) = true ∧
    contains (run (init 2) [Op.set PyVal.none (PyVal.int 0),
      Op.set (PyVal.int 1) (PyVal.int 0),
      Op.set (PyVal.int 2) (PyVal.int 0)]) (PyVal.int 2) = true := by
  decide

/-- C5 (amended): `length() ≤ capacity` after every sequence of public
operations whose `set` keys are non-`None` (`clear` included); with `None`
allowed as a key the bound fails (`C5_none_key_overflow`). -/
theorem C5_capacity_bound (n : Nat) (hn : 0 < n) (ops : List Op)
    (hops : ∀ op ∈ ops, opKeyOK op) : len (run (init n) ops) ≤ n := by
  have h := Wk_len_le (run (init n) ops)
    (Rw_run ops (init n) (Rw_init n hn) hops).2
  rw [run_size ops (init n)] at h
  have hsz : (init n).size = n := foldl_addNode_size _ _
  rwa [hsz] at h

/-- C5, counterexample: with `None` inserted as a key, a capacity-2 cache
reaches `length() = 3`. -/
theorem C5_none_key_overflow :
    (init 2).size = 2 ∧
    len (run (init 2) [Op.set PyVal.none (PyVal.int 0),
      Op.set (PyVal.int 1) (PyVal.int 0),
      Op.set (PyVal.int 2) (PyVal.int 0)]) = 3 := by
  decide

/-- C7: `__getitem__` raises exactly on the keys absent from the table,
leaving the cache unchanged; on a hit it returns the slot's stored object
and promotes the slot to `head` (the new front of the recency order),
touching no table entry and no stored object, and preserves the
invariant. -/
theorem C7_get_contract (c : lrucache) (hI : Inv c) (k : PyVal) :
    (lookupT c.table k = Option.none →
      getitem c k = Except.error () ∧ applyOp c (Op.get k) = c) ∧
    (∀ n, lookupT c.table k = Option.some n →
      getitem c k = Except.ok (applyOp c (Op.get k), (c.nodes n).obj) ∧
      (applyOp c (Op.get k)).head = n ∧
      ((applyOp c (Op.get k)).nodes n).key = k ∧
      occL (applyOp c (Op.get k)) = n :: (occL c).erase n ∧
      (applyOp c (Op.get k)).table = c.table ∧
      (∀ j, ((applyOp c (Op.get k)).nodes j).obj = (c.nodes j).obj) ∧
      Inv (applyOp c (Op.get k))) := by
  constructor
  · intro habs
    refine ⟨getitem_eq_error c habs, ?_⟩
    simp only [applyOp]
    rw [getitem_eq_error c habs]
  · intro n hlk
    have happ : applyOp c (Op.get k) = { mtf c n with head := n } := by
      simp only [applyOp]
      rw [getitem_eq c hlk]
    obtain ⟨hocc, hkey⟩ := hI.lookup_occ hlk
    obtain ⟨hI2, hocc2, _⟩ := Inv_promote c hI hocc
    refine ⟨?_, ?_, ?_, ?_, ?_, ?_, ?_⟩
    · rw [happ]
      exact getitem_eq c hlk
    · rw [happ]
    · rw [happ]
      show ((mtf c n).nodes n).key = k
      rw [mtf_nodes_key]
      exact hkey
    · rw [happ]
      exact hocc2
    · rw [happ]
      exact mtf_table c n
    · intro j
      rw [happ]
      exact mtf_nodes_obj c n j
    · rw [happ]
      exact hI2

/-- C8 (amended): the slot-emptiness invariant — a slot's key is `None`
exactly when its object is `None` — holds in every state reachable by
public operations whose `set` keys AND stored values are non-`None`;
storing the value `None` refutes the unrestricted claim
(`C8_none_value_breaks`). -/
theorem C8_slot_emptiness (n : Nat) (hn : 0 < n) (ops : List Op)
    (hops : ∀ op ∈ ops, opSOK op) : Sempty (run (init n) ops) :=
  (Sempty_run ops (init n) (Rw_init n hn) (Sempty_init n) hops).2

/-- C8, counterexample: `set(1, None)` produces a slot whose key is `1`
but whose object is `None`. -/
theorem C8_none_value_breaks :
    ¬ Sempty (run (init 1) [Op.set (PyVal.int 1) PyVal.none]) := by
  decide

end lrucache

namespace lrucache

/-- A concrete full capacity-2 cache holding keys `1` and `2`. -/
def cFull : lrucache :=
  run (init 2) [Op.set (PyVal.int 1) (PyVal.int 10),
    Op.set (PyVal.int 2) (PyVal.int 20)]

/-- A concrete capacity-2 cache holding key `1`. -/
def cGot : lrucache := run (init 2) [Op.set (PyVal.int 1) (PyVal.int 10)]

/-- A concrete capacity-2 cache whose tail slot holds the key `None`. -/
def cNone : lrucache :=
  run (init 2) [Op.set PyVal.none (PyVal.int 7),
    Op.set (PyVal.int 1) (PyVal.int 8)]

theorem C1_invariant_preserved_witness :
    0 < 2 ∧
    (∀ op ∈ [Op.set (PyVal.int 1) (PyVal.int 10), Op.get (PyVal.int 1),
      Op.del (PyVal.int 1)], opOK op) ∧
    Inv (run (init 2) [Op.set (PyVal.int 1) (PyVal.int 10),
      Op.get (PyVal.int 1), Op.del (PyVal.int 1)]) :=
  ⟨by decide, by decide, C1_invariant_preserved 2 (by decide) _ (by decide)⟩

theorem C2_delete_absent_raises_witness :
    lookupT (init 1).table (PyVal.int 7) = Option.none ∧
    (delitem (init 1) (PyVal.int 7) = Except.error () ∧
      applyOp (init 1) (Op.del (PyVal.int 7)) = init 1) :=
  ⟨by decide, C2_delete_absent_raises (init 1) (by decide)⟩

theorem C3_eviction_determinism_witness :
    Inv cFull ∧ PyVal.int 3 ≠ PyVal.none ∧
    ((len cFull = cFull.size →
      lookupT cFull.table (PyVal.int 3) = Option.none →
      contains cFull ((cFull.nodes ((cFull.nodes cFull.head).prev)).key)
        = true ∧
      ∃ c', setitem cFull (PyVal.int 3) (PyVal.int 30) = Except.ok c' ∧
        contains c' ((cFull.nodes ((cFull.nodes cFull.head).prev)).key)
          = false ∧
        contains c' (PyVal.int 3) = true ∧
        len c' = len cFull ∧
        (∀ q : PyVal, q ≠ PyVal.int 3 →
          q ≠ (cFull.nodes ((cFull.nodes cFull.head).prev)).key →
          contains c' q = contains cFull q)) ∧
    (∀ n, lookupT cFull.table (PyVal.int 3) = Option.some n →
      ∃ c', setitem cFull (PyVal.int 3) (PyVal.int 30) = Except.ok c' ∧
        len c' = len cFull ∧
        (∀ q : PyVal, contains c' q = contains cFull q))) :=
  ⟨by decide, by decide,
    C3_eviction_determinism cFull (by decide) (PyVal.int 30) (by decide)⟩

theorem C5_capacity_bound_witness :
    0 < 2 ∧
    (∀ op ∈ [Op.set (PyVal.int 1) (PyVal.int 10),
      Op.set (PyVal.int 2) (PyVal.int 20), Op.set (PyVal.int 3) (PyVal.int 30),
      Op.clr, Op.set (PyVal.int 4) (PyVal.int 40)], opKeyOK op) ∧
    len (run (init 2) [Op.set (PyVal.int 1) (PyVal.int 10),
      Op.set (PyVal.int 2) (PyVal.int 20), Op.set (PyVal.int 3) (PyVal.int 30),
      Op.clr, Op.set (PyVal.int 4) (PyVal.int 40)]) ≤ 2 :=
  ⟨by decide, by decide, C5_capacity_bound 2 (by decide) _ (by decide)⟩

theorem C6_mtf_correct_witness :
    WFring (init 3) ∧ 2 < (init 3).size ∧
    ((mtf (init 3) 2).head = (init 3).head ∧
     (2 ≠ (init 3).head → ((mtf (init 3) 2).nodes 2).next = (init 3).head ∧
       walkL (mtf (init 3) 2) = (walkL (init 3)).erase 2 ++ [2]) ∧
     (((init 3).nodes 2).next = (init 3).head →
       ∀ j, (mtf (init 3) 2).nodes j = (init 3).nodes j) ∧
     (2 = (init 3).head →
       ∀ j, (mtf (init 3) 2).nodes j = (init 3).nodes j)) :=
  ⟨by decide, by decide, @C6_mtf_correct (init 3) (by decide) 2 (by decide)⟩

theorem C7_get_contract_witness :
    Inv cGot ∧
    ((lookupT cGot.table (PyVal.int 1) = Option.none →
      getitem cGot (PyVal.int 1) = Except.error () ∧
      applyOp cGot (Op.get (PyVal.int 1)) = cGot) ∧
    (∀ n, lookupT cGot.table (PyVal.int 1) = Option.some n →
      getitem cGot (PyVal.int 1) =
        Except.ok (applyOp cGot (Op.get (PyVal.int 1)), (cGot.nodes n).obj) ∧
      (applyOp cGot (Op.get (PyVal.int 1))).head = n ∧
      ((applyOp cGot (Op.get (PyVal.int 1))).nodes n).key = PyVal.int 1 ∧
      occL (applyOp cGot (Op.get (PyVal.int 1))) = n :: (occL cGot).erase n ∧
      (applyOp cGot (Op.get (PyVal.int 1))).table = cGot.table ∧
      (∀ j, ((applyOp cGot (Op.get (PyVal.int 1))).nodes j).obj =
        (cGot.nodes j).obj) ∧
      Inv (applyOp cGot (Op.get (PyVal.int 1))))) :=
  ⟨by decide, C7_get_contract cGot (by decide) (PyVal.int 1)⟩

theorem C8_slot_emptiness_witness :
    0 < 2 ∧
    (∀ op ∈ [Op.set (PyVal.int 1) (PyVal.int 10), Op.del (PyVal.int 1)],
      opSOK op) ∧
    Sempty (run (init 2) [Op.set (PyVal.int 1) (PyVal.int 10),
      Op.del (PyVal.int 1)]) :=
  ⟨by decide, by decide, C8_slot_emptiness 2 (by decide) _ (by decide)⟩

theorem C9_set_idempotent_witness :
    WFr (init 2) ∧ (∀ p ∈ (init 2).table, p.2 < (init 2).size) ∧
    setitem (init 2) (PyVal.int 1) (PyVal.int 5) =
      Except.ok (insertState (init 2) (PyVal.int 1) (PyVal.int 5)) ∧
    setitem (insertState (init 2) (PyVal.int 1) (PyVal.int 5)) (PyVal.int 1)
      (PyVal.int 5) =
      Except.ok (insertState (init 2) (PyVal.int 1) (PyVal.int 5)) :=
  ⟨by decide, by decide,
    setitem_insert_eq_empty (init 2) (PyVal.int 5) (by decide) (by decide),
    C9_set_idempotent (init 2) _ (by decide) (by decide) _ _
      (setitem_insert_eq_empty (init 2) (PyVal.int 5) (by decide) (by decide))⟩

theorem C10_none_key_skips_eviction_witness :
    lookupT cNone.table (PyVal.int 2) = Option.none ∧
    (cNone.nodes ((cNone.nodes cNone.head).prev)).key = PyVal.none ∧
    lookupT cNone.table PyVal.none = Option.some 1 ∧
    (setitem cNone (PyVal.int 2) (PyVal.int 9) =
      Except.ok (insertState cNone (PyVal.int 2) (PyVal.int 9)) ∧
     contains (insertState cNone (PyVal.int 2) (PyVal.int 9)) PyVal.none
       = true ∧
     lookupT (insertState cNone (PyVal.int 2) (PyVal.int 9)).table PyVal.none
       = Option.some 1 ∧
     ((insertState cNone (PyVal.int 2) (PyVal.int 9)).nodes
       ((cNone.nodes cNone.head).prev)).key = PyVal.int 2 ∧
     len (insertState cNone (PyVal.int 2) (PyVal.int 9)) = len cNone + 1) :=
  ⟨by decide, by decide, by decide,
    @C10_none_key_skips_eviction cNone (PyVal.int 2) (PyVal.int 9) 1
      (by decide) (by decide) (by decide)⟩

end lrucache
